import Mathlib

/-!
Verification development for the "Layer Stacker" Figma plugin
(`src/code.ts`: `ZOrderUtils`, `PositionUtils`, `ReorderUtils`,
`validateSelection`, `validatePrimaryLayer`, `stackLayers`).

The host scene graph is modelled as a `Scene`: a finite set of node ids
with parent pointers, ordered children lists (index 0 = backmost/bottom,
matching the plugin's comment "Lower index = lower in stack"), a node
type (the plugin only inspects whether the type is `PAGE` and whether the
node can hold children), and mutable integer coordinates.

Host calls used by the plugin are modelled as follows:
* `children.indexOf(x)` → `jsIndexOf` (`-1` when absent, as in JS);
* `parent.insertChild(i, c)` → `insertChild`: the index is interpreted
  against the children array as observed at call time; the child is
  moved (detached from its current parent) into the gap directly before
  the child currently sitting at index `i` (appended at the end when
  `i` is past the end), reflecting Figma's fractional-position
  insertion order;
* `Array.prototype.sort(cmp)` → stable `List.mergeSort` with
  `le a b := cmp a b ≤ 0` (ECMAScript sorts are stable);
* `Array.prototype.reduce` → `List.foldl` seeded with the head.

The `WeakMap` ancestor-path cache of `ZOrderUtils` memoises a pure
function of the unmutated scene (all path queries happen before any
mutation within a run, and repeated runs only ever compare nodes that
share a parent, which never consults the cache), so it is semantically
transparent and not modelled.

The ancestor walk of the source is a `while` loop over parent links; it
is modelled with explicit fuel `s.nodes.length + 1`, which is enough
fuel on any acyclic scene since a parent chain cannot be longer than
the number of nodes.
-/

namespace FigmaStack

/-- Node types, as far as the plugin inspects them: `page` is the
root/page type (`node.type === 'PAGE'`), `frame` is a container scene
node (has a `children` property), `rect` is a leaf scene node (no
`children` property). -/
inductive NType where
  | page : NType
  | frame : NType
  | rect : NType
deriving DecidableEq, Repr

/-- Whether a node type can hold children (the `'children' in node`
type guard of `validatePrimaryLayer`). -/
def NType.hasKids : NType → Bool
  | .page => true
  | .frame => true
  | .rect => false

/-- The global `STACK_MODE` of the plugin, threaded as a parameter. -/
inductive StackMode where
  | primaryOnTop : StackMode
  | primaryOnBottom : StackMode
deriving DecidableEq, Repr

/-- The error taxonomy of the code: the three `throw new Error(...)`
sites of `validateSelection` / `validatePrimaryLayer`. -/
inductive StackError where
  | insufficientSelection : StackError
  | noParent : StackError
  | unsupportedContainer : StackError
deriving DecidableEq, Repr

/-- The host scene graph. Nodes are identified by `Nat` ids; `nodes`
lists every id in the document (pages included). Children lists are
ordered back-to-front. -/
structure Scene where
  nodes : List Nat
  parent : Nat → Option Nat
  children : Nat → List Nat
  ntype : Nat → NType
  xpos : Nat → Int
  ypos : Nat → Int

/-- JS `Array.prototype.indexOf` on a children list: the index of the
first occurrence, `-1` when absent. -/
def jsIndexOf (l : List Nat) (x : Nat) : Int :=
  match l.findIdx? (· = x) with
  | some i => (i : Int)
  | none => -1

/-- The `while (current.parent)` loop body of
`ZOrderUtils.getAncestorPath`: prepend the current node, stop when the
parent is the page, otherwise climb. `fuel` bounds the number of
iterations; on an acyclic scene the fuel passed by `getAncestorPath`
is never exhausted. -/
def gapAux (s : Scene) : Nat → Nat → List Nat → List Nat
  | 0, _, acc => acc
  | fuel + 1, current, acc =>
    match s.parent current with
    | none => acc
    | some p =>
      if s.ntype p = .page then current :: acc
      else gapAux s fuel p (current :: acc)

/-- `ZOrderUtils.getAncestorPath` (cache elided): the chain of
ancestors strictly below the page, ordered topmost-first, ending with
the queried node itself. -/
def getAncestorPath (s : Scene) (n : Nat) : List Nat :=
  gapAux s (s.nodes.length + 1) n []

/-- The `while (commonLevel < maxLevel && path1[commonLevel].parent ===
path2[commonLevel].parent)` loop of `compareZOrder`: the number of
leading positions at which the two paths' entries share a parent. -/
def commonLevel (s : Scene) : List Nat → List Nat → Nat
  | a :: as, b :: bs => if s.parent a = s.parent b then commonLevel s as bs + 1 else 0
  | _, _ => 0

/-- The cross-parent branch of `ZOrderUtils.compareZOrder`: compute
both ancestor paths, find the branch point, and compare the
branch-point ancestors by sibling index; `0` when there is no common
parent. -/
def compareZOrderCross (s : Scene) (l1 l2 : Nat) : Int :=
  let path1 := getAncestorPath s l1
  let path2 := getAncestorPath s l2
  let cl := commonLevel s path1 path2
  if cl = 0 then 0
  else
    let a1 := path1.getD (cl - 1) 0
    let a2 := path2.getD (cl - 1) 0
    match s.parent a1, s.parent a2 with
    | some q1, some q2 =>
      if q1 = q2 then jsIndexOf (s.children q1) a1 - jsIndexOf (s.children q1) a2
      else 0
    | _, _ => 0

/-- `ZOrderUtils.compareZOrder`: direct sibling-index comparison when
the two nodes share a parent, branch-point comparison otherwise.
Negative means `l1` is lower in the stack. -/
def compareZOrder (s : Scene) (l1 l2 : Nat) : Int :=
  match s.parent l1, s.parent l2 with
  | some p1, some p2 =>
    if p1 = p2 then jsIndexOf (s.children p1) l1 - jsIndexOf (s.children p1) l2
    else compareZOrderCross s l1 l2
  | _, _ => compareZOrderCross s l1 l2

/-- `ZOrderUtils.getTopmostLayer`: `layers.reduce` keeping the layer
with the larger z-order (`comparison < 0 ? current : topmost`). JS
`reduce` without an initial value seeds with the first element; the
source never calls it on an empty selection (the `[]` case returns the
junk id `0`). -/
def getTopmostLayer (s : Scene) : List Nat → Nat
  | [] => 0
  | h :: t =>
    t.foldl (fun topmost current =>
      if compareZOrder s topmost current < 0 then current else topmost) h

/-- `ZOrderUtils.sortLayersByZOrder`: `[...layers].sort(compareZOrder)`,
modelled as a stable merge sort with `le a b := compareZOrder a b ≤ 0`. -/
def sortLayersByZOrder (s : Scene) (layers : List Nat) : List Nat :=
  layers.mergeSort (fun a b => compareZOrder s a b ≤ 0)

/-- `PositionUtils.calculateOffsetPositions`: each layer is assigned
`primary + offset * (layers.length - index)`. -/
def calculateOffsetPositions (layers : List Nat)
    (primaryX primaryY xOffset yOffset : Int) : List (Nat × Int × Int) :=
  layers.enum.map (fun p =>
    (p.2, primaryX + xOffset * ((layers.length : Int) - (p.1 : Int)),
          primaryY + yOffset * ((layers.length : Int) - (p.1 : Int))))

/-- `PositionUtils.applyPositions`: write the computed coordinates back
into the scene. -/
def applyPositions (s : Scene) (positions : List (Nat × Int × Int)) : Scene :=
  positions.foldl (fun sc e =>
    { sc with
      xpos := fun n => if n = e.1 then e.2.1 else sc.xpos n
      ypos := fun n => if n = e.1 then e.2.2 else sc.ypos n }) s

/-- Host-side detach: remove a node from its current parent's children
list and clear its parent pointer (the first half of Figma's
`insertChild` when the node is already parented). -/
def detachNode (s : Scene) (c : Nat) : Scene :=
  match s.parent c with
  | none => s
  | some p =>
    { s with
      parent := fun n => if n = c then none else s.parent n
      children := fun m => if m = p then (s.children p).erase c else s.children m }

/-- Insert `c` directly before the first occurrence of `r` (at the end
when `r` does not occur). -/
def insertBefore : List Nat → Nat → Nat → List Nat
  | [], _, c => [c]
  | x :: xs, r, c => if x = r then c :: x :: xs else x :: insertBefore xs r c

/-- Host `parent.insertChild(i, c)`: `c` is moved into the gap directly
before the node currently at index `i` of `parent.children` (to the
end when `i` is past the end). When that node is `c` itself the move
is a no-op. -/
def insertChild (s : Scene) (par : Nat) (i : Nat) (c : Nat) : Scene :=
  match (s.children par)[i]? with
  | some r =>
    if r = c then s
    else
      let s1 := detachNode s c
      { s1 with
        parent := fun n => if n = c then some par else s1.parent n
        children := fun m => if m = par then insertBefore (s1.children par) r c
                             else s1.children m }
  | none =>
    let s1 := detachNode s c
    { s1 with
      parent := fun n => if n = c then some par else s1.parent n
      children := fun m => if m = par then s1.children par ++ [c]
                           else s1.children m }

/-- `ReorderUtils.reorderPrimaryOnTop`: insert every layer at the
primary's live sibling index (directly below the primary), re-querying
the index on each iteration. -/
def reorderPrimaryOnTop (s : Scene) (layersToStack : List Nat)
    (primaryLayer targetParent : Nat) : Scene :=
  layersToStack.foldl (fun sc layer =>
    let primaryIndex := (sc.children targetParent).findIdx (· = primaryLayer)
    insertChild sc targetParent primaryIndex layer) s

/-- `ReorderUtils.reorderPrimaryOnBottom`: insert every layer at the
primary's live sibling index plus one (directly above the primary). -/
def reorderPrimaryOnBottom (s : Scene) (layersToStack : List Nat)
    (primaryLayer targetParent : Nat) : Scene :=
  layersToStack.foldl (fun sc layer =>
    let primaryIndex := (sc.children targetParent).findIdx (· = primaryLayer)
    insertChild sc targetParent (primaryIndex + 1) layer) s

/-- `ReorderUtils.reorderLayers`: dispatch on the stack mode. -/
def reorderLayers (s : Scene) (layersToStack : List Nat)
    (primaryLayer targetParent : Nat) (stackMode : StackMode) : Scene :=
  match stackMode with
  | .primaryOnTop => reorderPrimaryOnTop s layersToStack primaryLayer targetParent
  | .primaryOnBottom => reorderPrimaryOnBottom s layersToStack primaryLayer targetParent

/-- `validateSelection`: fewer than two selected layers is an error. -/
def validateSelection (selection : List Nat) : Option StackError :=
  if selection.length < 2 then some .insufficientSelection else none

/-- `validatePrimaryLayer`: the primary layer must have a parent and
the parent must be able to hold children; returns the target parent. -/
def validatePrimaryLayer (s : Scene) (primaryLayer : Nat) : Except StackError Nat :=
  match s.parent primaryLayer with
  | none => .error .noParent
  | some targetParent =>
    if (s.ntype targetParent).hasKids then .ok targetParent
    else .error .unsupportedContainer

/-- `stackLayers`: validate, pick the topmost layer as primary, sort
the rest by global z-order, reorder them around the primary in its
parent, then apply the staggered offsets anchored at the primary's
original position. Errors are thrown before any mutation, so the error
outcome carries the unchanged scene. -/
def stackLayers (s : Scene) (selection : List Nat) (xOffset yOffset : Int)
    (mode : StackMode) : Scene × Option StackError :=
  match validateSelection selection with
  | some e => (s, some e)
  | none =>
    let primaryLayer := getTopmostLayer s selection
    let layersToStack := selection.filter (· ≠ primaryLayer)
    match validatePrimaryLayer s primaryLayer with
    | .error e => (s, some e)
    | .ok targetParent =>
      let primaryX := s.xpos primaryLayer
      let primaryY := s.ypos primaryLayer
      let sortedLayersToStack := sortLayersByZOrder s layersToStack
      let s1 := reorderLayers s sortedLayersToStack primaryLayer targetParent mode
      let s2 := applyPositions s1
        (calculateOffsetPositions sortedLayersToStack primaryX primaryY xOffset yOffset)
      (s2, none)

/-- Structural well-formedness of the parent/children maps: the node
list has no duplicates, children lists are duplicate-free and contain
only known nodes, parent pointers land on known nodes, and the parent
pointer agrees with membership in the children lists. -/
def WFmaps (s : Scene) : Prop :=
  s.nodes.Nodup ∧
  (∀ n ∈ s.nodes, ∀ m, s.parent n = some m → m ∈ s.nodes) ∧
  (∀ m ∈ s.nodes, (s.children m).Nodup ∧ ∀ n ∈ s.children m, n ∈ s.nodes) ∧
  (∀ n ∈ s.nodes, ∀ m ∈ s.nodes, (s.parent n = some m ↔ n ∈ s.children m))

instance (s : Scene) : Decidable (WFmaps s) := by
  unfold WFmaps
  infer_instance

/-- The fueled parent walk used to state acyclicity: the page-typed
node reached from `n` by following parent links (`none` when the walk
hits a parentless node, leaves the known nodes, or runs out of fuel). -/
def reachesPage (s : Scene) : Nat → Nat → Option Nat
  | 0, _ => none
  | fuel + 1, n =>
    match s.parent n with
    | none => none
    | some p => if s.ntype p = .page then some p else reachesPage s fuel p

/-- `n` lies in the tree rooted at the page `pg`: the parent walk from
`n` reaches `pg` within the scene's node count. -/
def inTreeOf (s : Scene) (pg n : Nat) : Prop :=
  reachesPage s (s.nodes.length + 1) n = some pg

instance (s : Scene) (pg n : Nat) : Decidable (inTreeOf s pg n) := by
  unfold inTreeOf
  infer_instance

/-
Concrete evaluation of `sortLayersByZOrder` inside witnesses and
counterexamples needs the merge sort to unfold definitionally.
-/
unseal List.merge List.mergeSort

/-! ### Concrete scenes used by witnesses and counterexamples -/

/-- A page (id 0) with three sibling rects 1, 2, 3, backmost first. -/
def sceneSib : Scene where
  nodes := [0, 1, 2, 3]
  parent := fun n => if n = 0 then none else if n ≤ 3 then some 0 else none
  children := fun n => if n = 0 then [1, 2, 3] else []
  ntype := fun n => if n = 0 then .page else .rect
  xpos := fun n => 10 * n
  ypos := fun n => 100 * n

/-- A page (id 0) holding a frame 1 whose children are rects 2 and 3. -/
def sceneNest : Scene where
  nodes := [0, 1, 2, 3]
  parent := fun n =>
    if n = 0 then none else if n = 1 then some 0
    else if n ≤ 3 then some 1 else none
  children := fun n => if n = 0 then [1] else if n = 1 then [2, 3] else []
  ntype := fun n => if n = 0 then .page else if n = 1 then .frame else .rect
  xpos := fun n => 10 * n
  ypos := fun _ => 0

/-- A broken hierarchy: page 0 holds frame 1 with rect 2 inside, while
frame 9 is parentless (severed from any page) and holds rect 3. -/
def sceneBroken : Scene where
  nodes := [0, 1, 2, 9, 3]
  parent := fun n =>
    if n = 1 then some 0 else if n = 2 then some 1
    else if n = 3 then some 9 else none
  children := fun n =>
    if n = 0 then [1] else if n = 1 then [2] else if n = 9 then [3] else []
  ntype := fun n =>
    if n = 0 then .page else if n = 2 ∨ n = 3 then .rect else .frame
  xpos := fun n => 10 * n
  ypos := fun _ => 0

/-- A page (id 0) with two frames 1 and 2; frame 1 holds rects 3, 4 and
frame 2 holds rects 5, 6. -/
def sceneCross : Scene where
  nodes := [0, 1, 2, 3, 4, 5, 6]
  parent := fun n =>
    if n = 1 ∨ n = 2 then some 0
    else if n = 3 ∨ n = 4 then some 1
    else if n = 5 ∨ n = 6 then some 2
    else none
  children := fun n =>
    if n = 0 then [1, 2] else if n = 1 then [3, 4]
    else if n = 2 then [5, 6] else []
  ntype := fun n => if n = 0 then .page else if n = 1 ∨ n = 2 then .frame else .rect
  xpos := fun n => 10 * n
  ypos := fun _ => 0

/-- A page (id 0) holding a rect 1 that (unusually) has rect children 2
and 3 — its type cannot hold children, exercising the
`UnsupportedContainer` guard. -/
def sceneLeafParent : Scene where
  nodes := [0, 1, 2, 3]
  parent := fun n =>
    if n = 0 then none else if n = 1 then some 0
    else if n ≤ 3 then some 1 else none
  children := fun n => if n = 0 then [1] else if n = 1 then [2, 3] else []
  ntype := fun n => if n = 0 then .page else .rect
  xpos := fun n => 10 * n
  ypos := fun _ => 0

/-- Two parentless rects 7 and 8, for the `NoParent` guard. -/
def sceneOrphans : Scene where
  nodes := [7, 8]
  parent := fun _ => none
  children := fun _ => []
  ntype := fun _ => .rect
  xpos := fun n => 10 * n
  ypos := fun _ => 0

/-! ### Basic lemmas about the reduce-based extremum -/

/-- The `reduce` step of `getTopmostLayer` only ever returns one of its
two arguments, so the fold stays inside the seed-plus-list. -/
theorem topmostFold_mem (s : Scene) :
    ∀ (t : List Nat) (a : Nat),
      t.foldl (fun topmost current =>
        if compareZOrder s topmost current < 0 then current else topmost) a ∈ a :: t := by
  intro t
  induction t with
  | nil => intro a; simp
  | cons b t ih =>
    intro a
    by_cases h : compareZOrder s a b < 0
    · have := ih b
      simp only [List.foldl_cons, if_pos h]
      rcases List.mem_cons.mp this with h1 | h1
      · rw [h1]; simp
      · simp [h1]
    · have := ih a
      simp only [List.foldl_cons, if_neg h]
      rcases List.mem_cons.mp this with h1 | h1
      · rw [h1]; simp
      · simp [h1]

/-- The extremum is always drawn from its input list. -/
theorem getTopmostLayer_mem (s : Scene) (sel : List Nat) (h : sel ≠ []) :
    getTopmostLayer s sel ∈ sel := by
  cases sel with
  | nil => exact absurd rfl h
  | cons a t =>
    have := topmostFold_mem s t a
    simpa [getTopmostLayer] using this

/-- **C10.** For every non-empty selection, `getTopmostLayer` returns an
element of the selection: the chosen anchor is always drawn from the
input list, never a node outside it. -/
theorem C10_topmost_mem (s : Scene) (sel : List Nat) (h : sel ≠ []) :
    getTopmostLayer s sel ∈ sel :=
  getTopmostLayer_mem s sel h

/-- Witness for C10 at a concrete selection of `sceneCross`. -/
theorem C10_witness :
    ([3, 5, 6] : List Nat) ≠ [] ∧ getTopmostLayer sceneCross [3, 5, 6] ∈ [3, 5, 6] :=
  ⟨by decide, C10_topmost_mem sceneCross [3, 5, 6] (by decide)⟩

/-! ### The validation guards (C7, C8) -/

/-- **C7.** A selection of fewer than two nodes makes `stackLayers` fail
with `InsufficientSelection`, returning the scene unchanged: the guard
fires before any mutation. -/
theorem C7_insufficient_selection (s : Scene) (sel : List Nat) (dx dy : Int)
    (mode : StackMode) (h : sel.length < 2) :
    stackLayers s sel dx dy mode = (s, some .insufficientSelection) := by
  unfold stackLayers validateSelection
  simp [h]

/-- Witness for C7: a single-node selection on `sceneSib`. -/
theorem C7_witness :
    ([2] : List Nat).length < 2 ∧
      stackLayers sceneSib [2] 8 8 .primaryOnTop = (sceneSib, some .insufficientSelection) :=
  ⟨by decide, C7_insufficient_selection sceneSib [2] 8 8 .primaryOnTop (by decide)⟩

/-- **C8.** With a valid selection size, if the anchor (topmost layer)
has no parent the run fails with `NoParent`; if its parent's type
cannot hold children it fails with `UnsupportedContainer`. In both
cases the scene is returned unchanged: validation precedes every
mutation. -/
theorem C8_anchor_validation (s : Scene) (sel : List Nat) (dx dy : Int)
    (mode : StackMode) (h : ¬ sel.length < 2) :
    (s.parent (getTopmostLayer s sel) = none →
      stackLayers s sel dx dy mode = (s, some .noParent)) ∧
    (∀ tp, s.parent (getTopmostLayer s sel) = some tp → (s.ntype tp).hasKids = false →
      stackLayers s sel dx dy mode = (s, some .unsupportedContainer)) := by
  constructor
  · intro hnp
    unfold stackLayers validateSelection validatePrimaryLayer
    simp [h, hnp]
  · intro tp htp hkids
    unfold stackLayers validateSelection validatePrimaryLayer
    simp [h, htp, hkids]

/-- Witness for C8: on `sceneLeafParent` the anchor 3's parent is the
rect 1, which cannot hold children. -/
theorem C8_witness :
    ¬ ([2, 3] : List Nat).length < 2 ∧
      ((sceneLeafParent.parent (getTopmostLayer sceneLeafParent [2, 3]) = none →
        stackLayers sceneLeafParent [2, 3] 8 8 .primaryOnTop =
          (sceneLeafParent, some .noParent)) ∧
      (∀ tp, sceneLeafParent.parent (getTopmostLayer sceneLeafParent [2, 3]) = some tp →
        (sceneLeafParent.ntype tp).hasKids = false →
        stackLayers sceneLeafParent [2, 3] 8 8 .primaryOnTop =
          (sceneLeafParent, some .unsupportedContainer))) :=
  ⟨by decide, C8_anchor_validation sceneLeafParent [2, 3] 8 8 .primaryOnTop (by decide)⟩

/-! ### Structure of the ancestor walk -/

/-- The accumulator of the ancestor walk is only ever appended to. -/
theorem gapAux_append (s : Scene) :
    ∀ (f : Nat) (n : Nat) (acc : List Nat),
      gapAux s f n acc = gapAux s f n [] ++ acc := by
  intro f
  induction f with
  | zero => intro n acc; simp [gapAux]
  | succ f ih =>
    intro n acc
    unfold gapAux
    cases hp : s.parent n with
    | none => simp
    | some p =>
      by_cases hpage : s.ntype p = NType.page
      · simp [hpage]
      · simp only [if_neg hpage]
        rw [ih p (n :: acc), ih p [n], List.append_assoc]
        simp

/-- A successful parent walk starts with a parent link. -/
theorem reaches_parent_some {s : Scene} {f n pg : Nat}
    (h : reachesPage s f n = some pg) : ∃ p, s.parent n = some p := by
  cases f with
  | zero => simp [reachesPage] at h
  | succ f =>
    unfold reachesPage at h
    cases hp : s.parent n with
    | none => rw [hp] at h; simp at h
    | some p => exact ⟨p, rfl⟩

/-- The node reached by the parent walk is page-typed. -/
theorem reaches_page_type {s : Scene} {f n pg : Nat}
    (h : reachesPage s f n = some pg) : s.ntype pg = NType.page := by
  induction f generalizing n with
  | zero => simp [reachesPage] at h
  | succ f ih =>
    unfold reachesPage at h
    cases hp : s.parent n with
    | none => rw [hp] at h; simp at h
    | some p =>
      rw [hp] at h
      simp only [] at h
      by_cases hpage : s.ntype p = NType.page
      · rw [if_pos hpage] at h
        cases h; exact hpage
      · rw [if_neg hpage] at h
        exact ih h

/-- Extra fuel does not change a parent walk that already succeeds. -/
theorem reaches_mono {s : Scene} {f n pg : Nat}
    (h : reachesPage s f n = some pg) :
    ∀ f', f ≤ f' → reachesPage s f' n = some pg := by
  induction f generalizing n with
  | zero => simp [reachesPage] at h
  | succ f ih =>
    intro f' hf
    unfold reachesPage at h
    cases hp : s.parent n with
    | none => rw [hp] at h; simp at h
    | some p =>
      rw [hp] at h
      simp only [] at h
      obtain ⟨f'', rfl⟩ : ∃ f'', f' = f'' + 1 := ⟨f' - 1, by omega⟩
      unfold reachesPage
      rw [hp]
      simp only []
      by_cases hpage : s.ntype p = NType.page
      · rw [if_pos hpage] at h ⊢; exact h
      · rw [if_neg hpage] at h ⊢
        exact ih h f'' (by omega)

/-- Extra fuel does not change an ancestor walk whose parent walk
already succeeds with the smaller fuel. -/
theorem gapAux_fuel_eq {s : Scene} {pg : Nat} :
    ∀ {f n : Nat}, reachesPage s f n = some pg →
      ∀ f', f ≤ f' → gapAux s f' n [] = gapAux s f n [] := by
  intro f
  induction f with
  | zero => intro n h; simp [reachesPage] at h
  | succ f ih =>
    intro n h f' hf
    unfold reachesPage at h
    cases hp : s.parent n with
    | none => rw [hp] at h; simp at h
    | some p =>
      rw [hp] at h
      simp only [] at h
      obtain ⟨f'', rfl⟩ : ∃ f'', f' = f'' + 1 := ⟨f' - 1, by omega⟩
      by_cases hpage : s.ntype p = NType.page
      · unfold gapAux
        rw [hp]
        simp [hpage]
      · rw [if_neg hpage] at h
        unfold gapAux
        rw [hp]
        simp only [if_neg hpage]
        rw [gapAux_append s f'' p [n], gapAux_append s f p [n],
          ih h f'' (by omega)]

/-- The ancestor walk ends with the queried node (or is empty). -/
theorem gapAux_last (s : Scene) :
    ∀ (f n : Nat), (gapAux s f n []).getLast? = some n ∨ gapAux s f n [] = [] := by
  intro f
  induction f with
  | zero => intro n; right; rfl
  | succ f ih =>
    intro n
    unfold gapAux
    cases hp : s.parent n with
    | none => right; rfl
    | some p =>
      by_cases hpage : s.ntype p = NType.page
      · left; simp [hpage]
      · left
        simp only [if_neg hpage]
        rw [gapAux_append s f p [n]]
        exact List.getLast?_concat _

/-- When the parent walk reaches a page, the ancestor walk is nonempty
and ends with the queried node. -/
theorem gapAux_last_of_reaches {s : Scene} {f n pg : Nat}
    (h : reachesPage s f n = some pg) :
    (gapAux s f n []).getLast? = some n := by
  rcases gapAux_last s f n with hl | hl
  · exact hl
  · exfalso
    cases f with
    | zero => simp [reachesPage] at h
    | succ f =>
      unfold reachesPage at h
      unfold gapAux at hl
      cases hp : s.parent n with
      | none => rw [hp] at h; simp at h
      | some p =>
        rw [hp] at h hl
        simp only [] at h hl
        by_cases hpage : s.ntype p = NType.page
        · rw [if_pos hpage] at hl; simp at hl
        · rw [if_neg hpage] at hl
          rw [gapAux_append s f p [n]] at hl
          simp at hl

/-- Consecutive entries of the ancestor walk are parent-linked: each
entry is the parent of the next. -/
theorem gapAux_chain (s : Scene) :
    ∀ (f n : Nat),
      List.Chain' (fun a b => s.parent b = some a) (gapAux s f n []) := by
  intro f
  induction f with
  | zero => intro n; simp [gapAux]
  | succ f ih =>
    intro n
    unfold gapAux
    cases hp : s.parent n with
    | none => simp
    | some p =>
      by_cases hpage : s.ntype p = NType.page
      · simp [hpage]
      · simp only [if_neg hpage]
        rw [gapAux_append s f p [n]]
        rw [List.chain'_append]
        refine ⟨ih p, by simp, ?_⟩
        intro x hx y hy
        rcases gapAux_last s f p with hl | hl
        · rw [hl] at hx
          cases hx
          simp at hy
          cases hy
          exact hp
        · rw [hl] at hx
          simp at hx

/-- Every entry of the ancestor walk has a parent. -/
theorem gapAux_mem_parent (s : Scene) :
    ∀ (f n : Nat), ∀ x ∈ gapAux s f n [], ∃ q, s.parent x = some q := by
  intro f
  induction f with
  | zero => intro n x hx; simp [gapAux] at hx
  | succ f ih =>
    intro n x hx
    unfold gapAux at hx
    cases hp : s.parent n with
    | none => rw [hp] at hx; simp at hx
    | some p =>
      rw [hp] at hx
      simp only [] at hx
      by_cases hpage : s.ntype p = NType.page
      · rw [if_pos hpage] at hx
        simp at hx
        cases hx
        exact ⟨p, hp⟩
      · rw [if_neg hpage] at hx
        rw [gapAux_append s f p [n]] at hx
        rcases List.mem_append.mp hx with hx | hx
        · exact ih p x hx
        · simp at hx
          cases hx
          exact ⟨p, hp⟩

/-- When the parent walk reaches the page `pg`, the first entry of the
ancestor walk is a direct child of `pg` (the topmost non-root
ancestor). -/
theorem gapAux_head_parent {s : Scene} {pg : Nat} :
    ∀ {f n : Nat}, reachesPage s f n = some pg →
      ∀ x, (gapAux s f n []).head? = some x → s.parent x = some pg := by
  intro f
  induction f with
  | zero => intro n h; simp [reachesPage] at h
  | succ f ih =>
    intro n h x hx
    unfold reachesPage at h
    unfold gapAux at hx
    cases hp : s.parent n with
    | none => rw [hp] at h; simp at h
    | some p =>
      rw [hp] at h hx
      simp only [] at h hx
      by_cases hpage : s.ntype p = NType.page
      · rw [if_pos hpage] at h
        rw [if_pos hpage] at hx
        simp at hx
        cases h; cases hx
        exact hp
      · rw [if_neg hpage] at h
        rw [if_neg hpage] at hx
        rw [gapAux_append s f p [n]] at hx
        rw [List.head?_append] at hx
        cases hh : (gapAux s f p []).head? with
        | some y =>
          rw [hh] at hx
          simp at hx
          cases hx
          exact ih h x hh
        | none =>
          exfalso
          have := gapAux_last_of_reaches h
          cases hgl : gapAux s f p [] with
          | nil => rw [hgl] at this; simp at this
          | cons a l => rw [hgl] at hh; simp at hh

/-- Unfolding step of `getAncestorPath` below the page: the path of a
node is the path of its (non-page) parent extended with the node. -/
theorem getAncestorPath_step {s : Scene} {pg n p : Nat}
    (hn : inTreeOf s pg n) (hp : s.parent n = some p)
    (hpage : s.ntype p ≠ NType.page) :
    getAncestorPath s n = getAncestorPath s p ++ [n] := by
  unfold inTreeOf at hn
  have hstep : reachesPage s s.nodes.length p = some pg := by
    unfold reachesPage at hn
    rw [hp] at hn
    simp only [] at hn
    rw [if_neg hpage] at hn
    exact hn
  unfold getAncestorPath
  conv_lhs => rw [gapAux]
  rw [hp]
  simp only [if_neg hpage]
  rw [gapAux_append s s.nodes.length p [n]]
  rw [gapAux_fuel_eq hstep (s.nodes.length + 1) (by omega)]

/-- Unfolding step of `getAncestorPath` directly below the page. -/
theorem getAncestorPath_base {s : Scene} {n p : Nat}
    (hp : s.parent n = some p) (hpage : s.ntype p = NType.page) :
    getAncestorPath s n = [n] := by
  unfold getAncestorPath gapAux
  rw [hp]
  simp [hpage]

/-- **C5 (amended).** For a node `n` inside the tree of page `pg`, the
resolver returns the ordered chain of ancestors from the topmost
non-root ancestor down to **and including** the queried node: the path
ends with `n` itself, consecutive entries are parent-linked, the first
entry is a direct child of the page, and — in particular — a node whose
parent is the page gets the path `[n]` of length 1 (not 0). -/
theorem C5_ancestor_path (s : Scene) (pg n : Nat) (hn : inTreeOf s pg n) :
    (getAncestorPath s n).getLast? = some n ∧
    List.Chain' (fun a b => s.parent b = some a) (getAncestorPath s n) ∧
    (∀ x, (getAncestorPath s n).head? = some x → s.parent x = some pg) ∧
    (∀ p, s.parent n = some p → s.ntype p = NType.page →
      getAncestorPath s n = [n]) := by
  refine ⟨gapAux_last_of_reaches hn, gapAux_chain s _ n,
    fun x hx => gapAux_head_parent hn x hx, fun p hp hpage => ?_⟩
  exact getAncestorPath_base hp hpage

/-- Witness for C5 (amended) at node 2 of `sceneNest`. -/
theorem C5_witness :
    inTreeOf sceneNest 0 2 ∧
      ((getAncestorPath sceneNest 2).getLast? = some 2 ∧
      List.Chain' (fun a b => sceneNest.parent b = some a) (getAncestorPath sceneNest 2) ∧
      (∀ x, (getAncestorPath sceneNest 2).head? = some x →
        sceneNest.parent x = some 0) ∧
      (∀ p, sceneNest.parent 2 = some p → sceneNest.ntype p = NType.page →
        getAncestorPath sceneNest 2 = [2])) :=
  ⟨by decide, C5_ancestor_path sceneNest 0 2 (by decide)⟩

/-- **C5 counterexample.** The claim says the path excludes the queried
node and has length 0 when the node's parent is the page. On
`sceneNest`, node 1's parent is the page 0, yet the resolver returns
`[1]` — the node itself, length 1, not 0. -/
theorem C5_counterexample :
    sceneNest.parent 1 = some 0 ∧ sceneNest.ntype 0 = NType.page ∧
      getAncestorPath sceneNest 1 = [1] ∧ (getAncestorPath sceneNest 1).length ≠ 0 := by
  decide

/-- **C6 (amended).** When the ancestor walk meets a severed parent
link (a non-page ancestor with no parent), it completes normally with
the chain accumulated so far instead of failing: there is no
`BrokenHierarchy` error in the code. Here, for a node `n` whose parent
`p` is a parentless non-page node, the walk returns `[n]`. -/
theorem C6_walk_completes (s : Scene) (n p : Nat) (hnode : n ∈ s.nodes)
    (hp : s.parent n = some p) (hpage : s.ntype p ≠ NType.page)
    (hsev : s.parent p = none) :
    getAncestorPath s n = [n] := by
  have hlen : 1 ≤ s.nodes.length := by
    cases hns : s.nodes with
    | nil => rw [hns] at hnode; simp at hnode
    | cons a l => simp [hns]
  unfold getAncestorPath
  obtain ⟨k, hk⟩ : ∃ k, s.nodes.length = k + 1 := ⟨s.nodes.length - 1, by omega⟩
  rw [hk]
  unfold gapAux
  rw [hp]
  simp only [if_neg hpage]
  unfold gapAux
  rw [hsev]

/-- Witness for C6 (amended) at node 3 of `sceneBroken`, whose parent 9
is a severed frame. -/
theorem C6_witness :
    (3 : Nat) ∈ sceneBroken.nodes ∧ sceneBroken.parent 3 = some 9 ∧
      sceneBroken.ntype 9 ≠ NType.page ∧ sceneBroken.parent 9 = none ∧
      getAncestorPath sceneBroken 3 = [3] :=
  ⟨by decide, by decide, by decide, by decide,
    C6_walk_completes sceneBroken 3 9 (by decide) (by decide) (by decide) (by decide)⟩

/-- **C6 counterexample.** The claim says a severed parent link makes
the operation fail with `BrokenHierarchy` rather than complete. On
`sceneBroken` the selection {2, 3} forces the walk through the severed
frame 9, yet the whole stacking operation completes with **no** error
(indeed the error type has no broken-hierarchy case at all). -/
theorem C6_counterexample :
    sceneBroken.parent 9 = none ∧ sceneBroken.ntype 9 ≠ NType.page ∧
      sceneBroken.parent 3 = some 9 ∧
      (stackLayers sceneBroken [2, 3] 8 8 .primaryOnTop).2 = none := by
  decide

/-! ### List utilities for the reorder analysis -/

/-- Remove every element of `ls` from `X`. -/
def dropAll (X ls : List Nat) : List Nat := X.filter (fun a => decide (a ∉ ls))

theorem findIdx_eq_prefix_length {A B : List Nat} {prim : Nat} (hA : prim ∉ A) :
    (A ++ prim :: B).findIdx (· = prim) = A.length := by
  induction A with
  | nil => simp [List.findIdx_cons]
  | cons a A ih =>
    have ha : ¬ (a = prim) := fun h => hA (h ▸ List.mem_cons_self a A)
    have ih' := ih (fun h => hA (List.mem_cons_of_mem a h))
    simp [List.findIdx_cons, ha, ih']

theorem getElem?_prefix_length {A B : List Nat} {x : Nat} :
    (A ++ x :: B)[A.length]? = some x := by
  rw [List.getElem?_append_right (le_refl _)]
  simp

theorem filter_bne_of_not_mem {A : List Nat} {l : Nat} (h : l ∉ A) :
    A.filter (fun a => a != l) = A := by
  rw [List.filter_eq_self]
  intro a ha
  have : a ≠ l := fun he => h (he ▸ ha)
  simp [this]

theorem not_mem_filter_bne (A : List Nat) (l : Nat) :
    l ∉ A.filter (fun a => a != l) := by
  intro h
  have := (List.mem_filter.mp h).2
  simp at this

theorem dropAll_filter_bne (X : List Nat) (l : Nat) (ls : List Nat) :
    dropAll (X.filter (fun a => a != l)) ls = dropAll X (l :: ls) := by
  unfold dropAll
  rw [List.filter_filter]
  apply List.filter_congr
  intro a _
  by_cases h1 : a = l
  · subst h1; simp
  · by_cases h2 : a ∈ ls <;> simp [h1, h2]

theorem dropAll_of_disjoint {X ls : List Nat} (h : ∀ a ∈ X, a ∉ ls) :
    dropAll X ls = X := by
  unfold dropAll
  rw [List.filter_eq_self]
  intro a ha
  simp [h a ha]

theorem dropAll_append (X Y ls : List Nat) :
    dropAll (X ++ Y) ls = dropAll X ls ++ dropAll Y ls := by
  unfold dropAll
  exact List.filter_append _ _

theorem dropAll_cons_not_mem {X : List Nat} {l : Nat} (ls : List Nat) (h : l ∉ ls) :
    dropAll (l :: X) ls = l :: dropAll X ls := by
  unfold dropAll
  simp [h]

theorem insertBefore_split {X Y : List Nat} {r c : Nat} (hr : r ∉ X) :
    insertBefore (X ++ r :: Y) r c = X ++ c :: r :: Y := by
  induction X with
  | nil => simp [insertBefore]
  | cons a X ih =>
    have ha : ¬ (a = r) := fun h => hr (h ▸ List.mem_cons_self a X)
    rw [List.cons_append, insertBefore, if_neg ha,
      ih (fun h => hr (List.mem_cons_of_mem a h))]
    rfl

/-! ### What a single `insertChild` at the primary's index does -/

/-- Scene fields other than `parent`/`children` are untouched by
`insertChild`. -/
theorem insertChild_xpos (s : Scene) (par i c : Nat) :
    (insertChild s par i c).xpos = s.xpos ∧
    (insertChild s par i c).ypos = s.ypos ∧
    (insertChild s par i c).ntype = s.ntype ∧
    (insertChild s par i c).nodes = s.nodes := by
  unfold insertChild detachNode
  cases (s.children par)[i]? with
  | none => cases s.parent c <;> simp
  | some r =>
    by_cases h : r = c
    · simp [h]
    · simp only [if_neg h]
      cases s.parent c <;> simp

/-- Children lists of the detach step: the detached node is removed
from the target parent's list (whether it lived there or elsewhere),
assuming the parent pointer is coherent with the children list. -/
theorem detachNode_children_par {s : Scene} {par l : Nat} {K : List Nat}
    (hch : s.children par = K) (hnd : K.Nodup)
    (hcoh : s.parent l ≠ some par → l ∉ s.children par) :
    (detachNode s l).children par = K.filter (fun b => b != l) ∧
    (detachNode s l).parent l = none ∧
    (∀ x, x ≠ l → (detachNode s l).parent x = s.parent x) := by
  cases hpl : s.parent l with
  | none =>
    have hne : l ∉ K := by
      rw [← hch]
      exact hcoh (by simp [hpl])
    have hred : detachNode s l = s := by
      unfold detachNode
      rw [hpl]
    rw [hred]
    exact ⟨by rw [hch, filter_bne_of_not_mem hne], hpl, fun x _ => rfl⟩
  | some q =>
    have hred : detachNode s l =
        { s with
          parent := fun n => if n = l then none else s.parent n
          children := fun m => if m = q then (s.children q).erase l
                               else s.children m } := by
      unfold detachNode
      rw [hpl]
    rw [hred]
    by_cases hq : q = par
    · refine ⟨?_, by simp, fun x hx => by simp [hx]⟩
      show (if par = q then (s.children q).erase l else s.children par) = _
      rw [if_pos hq.symm, hq, hch, List.Nodup.erase_eq_filter hnd]
    · have hne : l ∉ K := by
        rw [← hch]
        exact hcoh (by simp [hpl, hq])
      refine ⟨?_, by simp, fun x hx => by simp [hx]⟩
      show (if par = q then (s.children q).erase l else s.children par) = _
      rw [if_neg (Ne.symm hq), hch, filter_bne_of_not_mem hne]

/-- One `reorderPrimaryOnTop` iteration: inserting a layer at the
primary's live index moves it directly below the primary. -/
theorem insertChild_below_prim {s : Scene} {par prim l : Nat} {A B : List Nat}
    (hch : s.children par = A ++ prim :: B)
    (hnd : (A ++ prim :: B).Nodup)
    (hlp : l ≠ prim)
    (hcoh : s.parent l ≠ some par → l ∉ s.children par) :
    (insertChild s par ((s.children par).findIdx (· = prim)) l).children par
      = A.filter (fun a => a != l) ++ l :: prim :: B.filter (fun b => b != l) ∧
    (insertChild s par ((s.children par).findIdx (· = prim)) l).parent l = some par ∧
    (∀ x, x ≠ l →
      (insertChild s par ((s.children par).findIdx (· = prim)) l).parent x = s.parent x) := by
  have hmid := List.nodup_middle.mp hnd
  have hprimAB : prim ∉ A ++ B := (List.nodup_cons.mp hmid).1
  have hprimA : prim ∉ A := fun h => hprimAB (List.mem_append_left _ h)
  have hidx : (s.children par).findIdx (· = prim) = A.length := by
    rw [hch]; exact findIdx_eq_prefix_length hprimA
  have href : (s.children par)[(s.children par).findIdx (· = prim)]? = some prim := by
    rw [hidx, hch]; exact getElem?_prefix_length
  obtain ⟨hd1, _, hd3⟩ := detachNode_children_par hch hnd hcoh
  have hred : insertChild s par ((s.children par).findIdx (· = prim)) l =
      { detachNode s l with
        parent := fun n => if n = l then some par else (detachNode s l).parent n
        children := fun m =>
          if m = par then insertBefore ((detachNode s l).children par) prim l
          else (detachNode s l).children m } := by
    unfold insertChild
    rw [href]
    simp only []
    rw [if_neg (Ne.symm hlp)]
  have hfilter : (A ++ prim :: B).filter (fun b => b != l)
      = A.filter (fun a => a != l) ++ prim :: B.filter (fun b => b != l) := by
    rw [List.filter_append]
    congr 1
    simp [Ne.symm hlp]
  have hprimA' : prim ∉ A.filter (fun a => a != l) :=
    fun h => hprimA (List.mem_filter.mp h).1
  refine ⟨?_, ?_, ?_⟩
  · rw [hred]
    show (if par = par then insertBefore ((detachNode s l).children par) prim l
          else (detachNode s l).children par) = _
    rw [if_pos rfl, hd1, hfilter, insertBefore_split hprimA']
  · rw [hred]
    show (if l = l then some par else (detachNode s l).parent l) = some par
    rw [if_pos rfl]
  · intro x hx
    rw [hred]
    show (if x = l then some par else (detachNode s l).parent x) = s.parent x
    rw [if_neg hx, hd3 x hx]

/-- One `reorderPrimaryOnBottom` iteration: inserting a layer at the
primary's live index plus one moves it directly above the primary. -/
theorem insertChild_above_prim {s : Scene} {par prim l : Nat} {A B : List Nat}
    (hch : s.children par = A ++ prim :: B)
    (hnd : (A ++ prim :: B).Nodup)
    (hlp : l ≠ prim)
    (hcoh : s.parent l ≠ some par → l ∉ s.children par) :
    (insertChild s par ((s.children par).findIdx (· = prim) + 1) l).children par
      = A.filter (fun a => a != l) ++ prim :: l :: B.filter (fun b => b != l) ∧
    (insertChild s par ((s.children par).findIdx (· = prim) + 1) l).parent l = some par ∧
    (∀ x, x ≠ l →
      (insertChild s par ((s.children par).findIdx (· = prim) + 1) l).parent x
        = s.parent x) := by
  have hmid := List.nodup_middle.mp hnd
  have hprimAB : prim ∉ A ++ B := (List.nodup_cons.mp hmid).1
  have hprimA : prim ∉ A := fun h => hprimAB (List.mem_append_left _ h)
  have hprimB : prim ∉ B := fun h => hprimAB (List.mem_append_right _ h)
  have hidx : (s.children par).findIdx (· = prim) = A.length := by
    rw [hch]; exact findIdx_eq_prefix_length hprimA
  have href : (s.children par)[(s.children par).findIdx (· = prim) + 1]? = B[0]? := by
    rw [hidx, hch]
    rw [List.getElem?_append_right (by omega)]
    simp
  obtain ⟨hd1, _, hd3⟩ := detachNode_children_par hch hnd hcoh
  have hfilter : (A ++ prim :: B).filter (fun b => b != l)
      = A.filter (fun a => a != l) ++ prim :: B.filter (fun b => b != l) := by
    rw [List.filter_append]
    congr 1
    simp [Ne.symm hlp]
  cases hB : B with
  | nil =>
    have hrefnone : (s.children par)[(s.children par).findIdx (· = prim) + 1]? = none := by
      rw [href, hB]; rfl
    have hred : insertChild s par ((s.children par).findIdx (· = prim) + 1) l =
        { detachNode s l with
          parent := fun n => if n = l then some par else (detachNode s l).parent n
          children := fun m =>
            if m = par then (detachNode s l).children par ++ [l]
            else (detachNode s l).children m } := by
      unfold insertChild
      rw [hrefnone]
    subst hB
    refine ⟨?_, ?_, ?_⟩
    · rw [hred]
      show (if par = par then (detachNode s l).children par ++ [l]
            else (detachNode s l).children par) = _
      rw [if_pos rfl, hd1, hfilter]
      simp
    · rw [hred]
      show (if l = l then some par else (detachNode s l).parent l) = some par
      rw [if_pos rfl]
    · intro x hx
      rw [hred]
      show (if x = l then some par else (detachNode s l).parent x) = s.parent x
      rw [if_neg hx, hd3 x hx]
  | cons b B' =>
    have hrefb : (s.children par)[(s.children par).findIdx (· = prim) + 1]? = some b := by
      rw [href, hB]; simp
    have hshape : A ++ prim :: B = (A ++ [prim]) ++ b :: B' := by
      rw [hB]; simp
    have hnd' : ((A ++ [prim]) ++ b :: B').Nodup := hshape ▸ hnd
    have hbout : b ∉ (A ++ [prim]) ++ B' :=
      (List.nodup_cons.mp (List.nodup_middle.mp hnd')).1
    have hbA : b ∉ A := fun h =>
      hbout (List.mem_append_left _ (List.mem_append_left _ h))
    have hbB' : b ∉ B' := fun h => hbout (List.mem_append_right _ h)
    have hbprim : b ≠ prim := by
      intro h
      exact hprimB (by rw [hB, ← h]; exact List.mem_cons_self b B')
    by_cases hbl : b = l
    · -- the layer already sits directly above the primary: a no-op move
      subst hbl
      have hred : insertChild s par ((s.children par).findIdx (· = prim) + 1) b = s := by
        unfold insertChild
        rw [hrefb]
        simp
      have hlmem : b ∈ s.children par := by
        rw [hch, hB]
        simp
      have hlpar : s.parent b = some par := by
        by_contra hne
        exact hcoh hne hlmem
      refine ⟨?_, ?_, fun x _ => by rw [hred]⟩
      · rw [hred, hch, hB]
        simp [List.filter_cons, filter_bne_of_not_mem hbA, filter_bne_of_not_mem hbB']
      · rw [hred]
        exact hlpar
    · have hred : insertChild s par ((s.children par).findIdx (· = prim) + 1) l =
          { detachNode s l with
            parent := fun n => if n = l then some par else (detachNode s l).parent n
            children := fun m =>
              if m = par then insertBefore ((detachNode s l).children par) b l
              else (detachNode s l).children m } := by
        unfold insertChild
        rw [hrefb]
        simp only []
        rw [if_neg hbl]
      have hfilterB : (b :: B').filter (fun x => x != l) = b :: B'.filter (fun x => x != l) := by
        simp [hbl]
      have hbA' : b ∉ (A.filter (fun a => a != l)) ++ [prim] := by
        intro h
        rcases List.mem_append.mp h with h | h
        · exact hbA (List.mem_filter.mp h).1
        · simp at h
          exact hbprim h
      refine ⟨?_, ?_, ?_⟩
      · rw [hred]
        show (if par = par then insertBefore ((detachNode s l).children par) b l
              else (detachNode s l).children par) = _
        rw [if_pos rfl, hd1, hfilter, hB, hfilterB]
        have hsplit : A.filter (fun a => a != l) ++ prim :: b :: B'.filter (fun x => x != l)
            = (A.filter (fun a => a != l) ++ [prim]) ++ b :: B'.filter (fun x => x != l) := by
          simp
        rw [hsplit, insertBefore_split hbA']
        simp
      · rw [hred]
        show (if l = l then some par else (detachNode s l).parent l) = some par
        rw [if_pos rfl]
      · intro x hx
        rw [hred]
        show (if x = l then some par else (detachNode s l).parent x) = s.parent x
        rw [if_neg hx, hd3 x hx]

theorem dropAll_nil (X : List Nat) : dropAll X [] = X := by
  unfold dropAll
  simp

/-- Inserting a fresh element next to the pivot of a duplicate-free
split list keeps it duplicate-free (both insertion sides). -/
theorem nodup_insert_between {A B : List Nat} {prim l : Nat}
    (hnd : (A ++ prim :: B).Nodup) (hlp : l ≠ prim) :
    (A.filter (fun a => a != l) ++ l :: prim :: B.filter (fun b => b != l)).Nodup ∧
    (A.filter (fun a => a != l) ++ prim :: l :: B.filter (fun b => b != l)).Nodup := by
  have hfilter : (A ++ prim :: B).filter (fun x => x != l)
      = A.filter (fun a => a != l) ++ prim :: B.filter (fun b => b != l) := by
    rw [List.filter_append]
    congr 1
    simp [Ne.symm hlp]
  have hbase : (A.filter (fun a => a != l) ++ prim :: B.filter (fun b => b != l)).Nodup := by
    rw [← hfilter]
    exact hnd.filter _
  have hlnotin : l ∉ A.filter (fun a => a != l) ++ prim :: B.filter (fun b => b != l) := by
    intro h
    rcases List.mem_append.mp h with h | h
    · exact not_mem_filter_bne A l h
    · rcases List.mem_cons.mp h with h | h
      · exact hlp h
      · exact not_mem_filter_bne B l h
  constructor
  · rw [List.nodup_middle]
    exact List.nodup_cons.mpr ⟨hlnotin, hbase⟩
  · have hshape : A.filter (fun a => a != l) ++ prim :: l :: B.filter (fun b => b != l)
        = (A.filter (fun a => a != l) ++ [prim]) ++ l :: B.filter (fun b => b != l) := by
      simp
    rw [hshape, List.nodup_middle]
    refine List.nodup_cons.mpr ⟨?_, ?_⟩
    · intro h
      apply hlnotin
      rcases List.mem_append.mp h with h | h
      · rcases List.mem_append.mp h with h | h
        · exact List.mem_append_left _ h
        · simp at h
          exact absurd h hlp
      · exact List.mem_append_right _ (List.mem_cons_of_mem _ h)
    · have : (A.filter (fun a => a != l) ++ [prim]) ++ B.filter (fun b => b != l)
          = A.filter (fun a => a != l) ++ prim :: B.filter (fun b => b != l) := by simp
      rw [this]
      exact hbase

/-- `ReorderUtils.reorderPrimaryOnTop`, characterised: the stacked
layers end up as one contiguous block directly below the primary, in
their given order, with the untouched siblings keeping their relative
places around the block. The stacked layers are reparented to the
target parent; nobody else's parent changes. -/
theorem reorderTop_children (par prim : Nat) (ls : List Nat) :
    ∀ (s : Scene) (A B : List Nat),
      s.children par = A ++ prim :: B →
      (A ++ prim :: B).Nodup →
      (∀ l ∈ ls, l ≠ prim) →
      ls.Nodup →
      (∀ l ∈ ls, s.parent l ≠ some par → l ∉ s.children par) →
      (reorderPrimaryOnTop s ls prim par).children par
        = dropAll A ls ++ ls ++ prim :: dropAll B ls ∧
      (∀ x, x ∉ ls → (reorderPrimaryOnTop s ls prim par).parent x = s.parent x) ∧
      (∀ l ∈ ls, (reorderPrimaryOnTop s ls prim par).parent l = some par) := by
  induction ls with
  | nil =>
    intro s A B hch _ _ _ _
    refine ⟨?_, fun x _ => rfl, fun l hl => absurd hl (List.not_mem_nil l)⟩
    rw [dropAll_nil, dropAll_nil]
    simpa [reorderPrimaryOnTop] using hch
  | cons l ls ih =>
    intro s A B hch hnd hprim hndls hcoh
    have hlmem : l ∈ l :: ls := List.mem_cons_self l ls
    have hlprim : l ≠ prim := hprim l hlmem
    have hlnotls : l ∉ ls := (List.nodup_cons.mp hndls).1
    obtain ⟨h1, h2, h3⟩ :=
      insertChild_below_prim hch hnd hlprim (hcoh l hlmem)
    have hfold : reorderPrimaryOnTop s (l :: ls) prim par
        = reorderPrimaryOnTop
            (insertChild s par ((s.children par).findIdx (· = prim)) l) ls prim par := rfl
    set s' := insertChild s par ((s.children par).findIdx (· = prim)) l with hs'
    have hch' : s'.children par
        = (A.filter (fun a => a != l) ++ [l]) ++ prim :: B.filter (fun b => b != l) := by
      rw [h1]; simp
    have hnd' : ((A.filter (fun a => a != l) ++ [l])
        ++ prim :: B.filter (fun b => b != l)).Nodup := by
      have := (nodup_insert_between hnd hlprim).1
      simpa using this
    have hcoh' : ∀ m ∈ ls, s'.parent m ≠ some par → m ∉ s'.children par := by
      intro m hm hpm
      have hml : m ≠ l := fun h => hlnotls (h ▸ hm)
      rw [h3 m hml] at hpm
      have hold := hcoh m (List.mem_cons_of_mem l hm) hpm
      rw [h1]
      intro hmem
      apply hold
      rw [hch]
      rcases List.mem_append.mp hmem with h | h
      · exact List.mem_append_left _ (List.mem_filter.mp h).1
      · rcases List.mem_cons.mp h with h | h
        · exact absurd h hml
        · rcases List.mem_cons.mp h with h | h
          · exact h ▸ List.mem_append_right _ (List.mem_cons_self _ _)
          · exact List.mem_append_right _
              (List.mem_cons_of_mem _ (List.mem_filter.mp h).1)
    obtain ⟨ih1, ih2, ih3⟩ := ih s' (A.filter (fun a => a != l) ++ [l])
      (B.filter (fun b => b != l)) hch' hnd'
      (fun m hm => hprim m (List.mem_cons_of_mem l hm))
      (List.nodup_cons.mp hndls).2 hcoh'
    refine ⟨?_, ?_, ?_⟩
    · rw [hfold, ih1, dropAll_append, dropAll_filter_bne, dropAll_filter_bne]
      simp [dropAll, hlnotls]
    · intro x hx
      have hxl : x ≠ l := fun h => hx (h ▸ hlmem)
      have hxls : x ∉ ls := fun h => hx (List.mem_cons_of_mem l h)
      rw [hfold, ih2 x hxls, h3 x hxl]
    · intro m hm
      rcases List.mem_cons.mp hm with h | h
      · subst h
        rw [hfold, ih2 m hlnotls]
        exact h2
      · exact hfold ▸ ih3 m h

/-- `ReorderUtils.reorderPrimaryOnBottom`, characterised: the stacked
layers end up as one contiguous block directly **above** the primary,
in **reverse** of their given order (each insertion pushes the earlier
ones further up), with untouched siblings keeping their relative
places. -/
theorem reorderBottom_children (par prim : Nat) (ls : List Nat) :
    ∀ (s : Scene) (A B : List Nat),
      s.children par = A ++ prim :: B →
      (A ++ prim :: B).Nodup →
      (∀ l ∈ ls, l ≠ prim) →
      ls.Nodup →
      (∀ l ∈ ls, s.parent l ≠ some par → l ∉ s.children par) →
      (reorderPrimaryOnBottom s ls prim par).children par
        = dropAll A ls ++ prim :: (ls.reverse ++ dropAll B ls) ∧
      (∀ x, x ∉ ls → (reorderPrimaryOnBottom s ls prim par).parent x = s.parent x) ∧
      (∀ l ∈ ls, (reorderPrimaryOnBottom s ls prim par).parent l = some par) := by
  induction ls with
  | nil =>
    intro s A B hch _ _ _ _
    refine ⟨?_, fun x _ => rfl, fun l hl => absurd hl (List.not_mem_nil l)⟩
    rw [dropAll_nil, dropAll_nil]
    simpa [reorderPrimaryOnBottom] using hch
  | cons l ls ih =>
    intro s A B hch hnd hprim hndls hcoh
    have hlmem : l ∈ l :: ls := List.mem_cons_self l ls
    have hlprim : l ≠ prim := hprim l hlmem
    have hlnotls : l ∉ ls := (List.nodup_cons.mp hndls).1
    obtain ⟨h1, h2, h3⟩ :=
      insertChild_above_prim hch hnd hlprim (hcoh l hlmem)
    have hfold : reorderPrimaryOnBottom s (l :: ls) prim par
        = reorderPrimaryOnBottom
            (insertChild s par ((s.children par).findIdx (· = prim) + 1) l) ls prim par := rfl
    set s' := insertChild s par ((s.children par).findIdx (· = prim) + 1) l with hs'
    have hch' : s'.children par
        = A.filter (fun a => a != l) ++ prim :: (l :: B.filter (fun b => b != l)) := by
      rw [h1]
    have hnd' : (A.filter (fun a => a != l)
        ++ prim :: (l :: B.filter (fun b => b != l))).Nodup :=
      (nodup_insert_between hnd hlprim).2
    have hcoh' : ∀ m ∈ ls, s'.parent m ≠ some par → m ∉ s'.children par := by
      intro m hm hpm
      have hml : m ≠ l := fun h => hlnotls (h ▸ hm)
      rw [h3 m hml] at hpm
      have hold := hcoh m (List.mem_cons_of_mem l hm) hpm
      rw [h1]
      intro hmem
      apply hold
      rw [hch]
      rcases List.mem_append.mp hmem with h | h
      · exact List.mem_append_left _ (List.mem_filter.mp h).1
      · rcases List.mem_cons.mp h with h | h
        · exact h ▸ List.mem_append_right _ (List.mem_cons_self _ _)
        · rcases List.mem_cons.mp h with h | h
          · exact absurd h hml
          · exact List.mem_append_right _
              (List.mem_cons_of_mem _ (List.mem_filter.mp h).1)
    obtain ⟨ih1, ih2, ih3⟩ := ih s' (A.filter (fun a => a != l))
      (l :: B.filter (fun b => b != l)) hch' hnd'
      (fun m hm => hprim m (List.mem_cons_of_mem l hm))
      (List.nodup_cons.mp hndls).2 hcoh'
    refine ⟨?_, ?_, ?_⟩
    · rw [hfold, ih1, dropAll_filter_bne,
        dropAll_cons_not_mem _ hlnotls, dropAll_filter_bne]
      simp
    · intro x hx
      have hxl : x ≠ l := fun h => hx (h ▸ hlmem)
      have hxls : x ∉ ls := fun h => hx (List.mem_cons_of_mem l h)
      rw [hfold, ih2 x hxls, h3 x hxl]
    · intro m hm
      rcases List.mem_cons.mp hm with h | h
      · subst h
        rw [hfold, ih2 m hlnotls]
        exact h2
      · exact hfold ▸ ih3 m h

/-! ### Field preservation and position application -/

/-- Reordering never touches coordinates, node types or the node list. -/
theorem reorder_fields (ls : List Nat) (prim par : Nat) :
    ∀ (s : Scene),
      ((reorderPrimaryOnTop s ls prim par).xpos = s.xpos ∧
       (reorderPrimaryOnTop s ls prim par).ypos = s.ypos ∧
       (reorderPrimaryOnTop s ls prim par).ntype = s.ntype ∧
       (reorderPrimaryOnTop s ls prim par).nodes = s.nodes) ∧
      ((reorderPrimaryOnBottom s ls prim par).xpos = s.xpos ∧
       (reorderPrimaryOnBottom s ls prim par).ypos = s.ypos ∧
       (reorderPrimaryOnBottom s ls prim par).ntype = s.ntype ∧
       (reorderPrimaryOnBottom s ls prim par).nodes = s.nodes) := by
  induction ls with
  | nil => intro s; exact ⟨⟨rfl, rfl, rfl, rfl⟩, ⟨rfl, rfl, rfl, rfl⟩⟩
  | cons l ls ih =>
    intro s
    constructor
    · obtain ⟨hx, hy, ht, hn⟩ :=
        insertChild_xpos s par ((s.children par).findIdx (· = prim)) l
      have hstep := (ih (insertChild s par ((s.children par).findIdx (· = prim)) l)).1
      exact ⟨hstep.1.trans hx, hstep.2.1.trans hy, hstep.2.2.1.trans ht,
        hstep.2.2.2.trans hn⟩
    · obtain ⟨hx, hy, ht, hn⟩ :=
        insertChild_xpos s par ((s.children par).findIdx (· = prim) + 1) l
      have hstep := (ih (insertChild s par ((s.children par).findIdx (· = prim) + 1) l)).2
      exact ⟨hstep.1.trans hx, hstep.2.1.trans hy, hstep.2.2.1.trans ht,
        hstep.2.2.2.trans hn⟩

/-- Applying positions never touches the tree structure. -/
theorem applyPositions_fields (ps : List (Nat × Int × Int)) :
    ∀ (s : Scene),
      (applyPositions s ps).children = s.children ∧
      (applyPositions s ps).parent = s.parent ∧
      (applyPositions s ps).ntype = s.ntype ∧
      (applyPositions s ps).nodes = s.nodes := by
  induction ps with
  | nil => intro s; exact ⟨rfl, rfl, rfl, rfl⟩
  | cons e ps ih =>
    intro s
    have hstep := ih { s with
      xpos := fun n => if n = e.1 then e.2.1 else s.xpos n
      ypos := fun n => if n = e.1 then e.2.2 else s.ypos n }
    exact hstep

/-- A node not named in the position list keeps its coordinates. -/
theorem applyPositions_not_mem (ps : List (Nat × Int × Int)) :
    ∀ (s : Scene) (x : Nat), (∀ e ∈ ps, e.1 ≠ x) →
      (applyPositions s ps).xpos x = s.xpos x ∧
      (applyPositions s ps).ypos x = s.ypos x := by
  induction ps with
  | nil => intro s x _; exact ⟨rfl, rfl⟩
  | cons e ps ih =>
    intro s x hx
    have hex : e.1 ≠ x := hx e (List.mem_cons_self e ps)
    have hstep := ih { s with
      xpos := fun n => if n = e.1 then e.2.1 else s.xpos n
      ypos := fun n => if n = e.1 then e.2.2 else s.ypos n } x
      (fun f hf => hx f (List.mem_cons_of_mem e hf))
    have hxe : ¬ (x = e.1) := fun h => hex h.symm
    refine ⟨hstep.1.trans ?_, hstep.2.trans ?_⟩ <;> simp [hxe]

/-- A node named once in the position list gets exactly its listed
coordinates. -/
theorem applyPositions_mem (ps : List (Nat × Int × Int)) :
    ∀ (s : Scene) (x : Nat) (vx vy : Int),
      (ps.map (·.1)).Nodup → (x, vx, vy) ∈ ps →
      (applyPositions s ps).xpos x = vx ∧ (applyPositions s ps).ypos x = vy := by
  induction ps with
  | nil => intro s x vx vy _ hm; exact absurd hm (List.not_mem_nil _)
  | cons e ps ih =>
    intro s x vx vy hnd hm
    have hnd' : (ps.map (·.1)).Nodup := (List.nodup_cons.mp hnd).2
    rcases List.mem_cons.mp hm with h | h
    · subst h
      have hxnot : ∀ f ∈ ps, f.1 ≠ x := by
        intro f hf he
        exact (List.nodup_cons.mp hnd).1 (List.mem_map.mpr ⟨f, hf, he⟩)
      have hstep := applyPositions_not_mem ps { s with
        xpos := fun n => if n = x then vx else s.xpos n
        ypos := fun n => if n = x then vy else s.ypos n } x hxnot
      refine ⟨hstep.1.trans ?_, hstep.2.trans ?_⟩ <;> simp
    · exact ih _ x vx vy hnd' h

/-- The keys of `calculateOffsetPositions` are exactly the layers. -/
theorem calcOffset_keys (ls : List Nat) (px py dx dy : Int) :
    (calculateOffsetPositions ls px py dx dy).map (·.1) = ls := by
  unfold calculateOffsetPositions
  rw [List.map_map]
  exact List.enum_map_snd ls

/-- The position entry produced for the layer at index `i`. -/
theorem calcOffset_entry (ls : List Nat) (px py dx dy : Int) (i : Nat)
    (hi : i < ls.length) :
    (ls[i], px + dx * ((ls.length : Int) - (i : Int)),
      py + dy * ((ls.length : Int) - (i : Int)))
      ∈ calculateOffsetPositions ls px py dx dy := by
  unfold calculateOffsetPositions
  apply List.mem_map.mpr
  refine ⟨(i, ls[i]), ?_, rfl⟩
  have h2 : i < ls.enum.length := by simpa using hi
  have := List.getElem_enum ls i h2
  exact this ▸ List.getElem_mem h2

/-- `indexOf` at the pivot of a split list with a fresh prefix. -/
theorem jsIndexOf_split {X Y : List Nat} {x : Nat} (hx : x ∉ X) :
    jsIndexOf (X ++ x :: Y) x = (X.length : Int) := by
  unfold jsIndexOf
  rw [List.findIdx?_append]
  have h1 : X.findIdx? (· = x) = none := by
    rw [List.findIdx?_eq_none_iff]
    intro a ha
    simp
    exact fun h => hx (h ▸ ha)
  have h2 : (x :: Y).findIdx? (· = x) = some 0 := by
    rw [List.findIdx?_cons]
    simp
  rw [h1, h2]
  simp

/-- Membership in `dropAll`. -/
theorem mem_dropAll {X ls : List Nat} {a : Nat} :
    a ∈ dropAll X ls ↔ a ∈ X ∧ a ∉ ls := by
  unfold dropAll
  simp [List.mem_filter]

/-- The reordered container list is duplicate-free (anchor-on-top
shape). -/
theorem nodup_block_top {A₀ B₀ sorted : List Nat} {P : Nat}
    (h : (A₀ ++ P :: B₀).Nodup) (hs : sorted.Nodup) (hP : P ∉ sorted) :
    (dropAll A₀ sorted ++ (sorted ++ P :: dropAll B₀ sorted)).Nodup := by
  obtain ⟨hA₀, hPB₀, hdisj⟩ := List.nodup_append.mp h
  obtain ⟨hPnB₀, hB₀⟩ := List.nodup_cons.mp hPB₀
  have hPnA₀ : P ∉ A₀ := fun hmem => hdisj hmem (List.mem_cons_self _ _)
  refine List.nodup_append.mpr ⟨hA₀.filter _, ?_, ?_⟩
  · refine List.nodup_append.mpr ⟨hs, ?_, ?_⟩
    · refine List.nodup_cons.mpr ⟨?_, hB₀.filter _⟩
      intro hmem
      exact hPnB₀ (mem_dropAll.mp hmem).1
    · intro a ha hmem
      rcases List.mem_cons.mp hmem with h1 | h1
      · exact hP (h1 ▸ ha)
      · exact (mem_dropAll.mp h1).2 ha
  · intro a ha hmem
    obtain ⟨haA₀, hans⟩ := mem_dropAll.mp ha
    rcases List.mem_append.mp hmem with h1 | h1
    · exact hans h1
    · rcases List.mem_cons.mp h1 with h1 | h1
      · exact hPnA₀ (h1 ▸ haA₀)
      · exact hdisj haA₀ (List.mem_cons_of_mem _ (mem_dropAll.mp h1).1)

/-- The reordered container list is duplicate-free (anchor-on-bottom
shape). -/
theorem nodup_block_bottom {A₀ B₀ sorted : List Nat} {P : Nat}
    (h : (A₀ ++ P :: B₀).Nodup) (hs : sorted.Nodup) (hP : P ∉ sorted) :
    (dropAll A₀ sorted ++ P :: (sorted.reverse ++ dropAll B₀ sorted)).Nodup := by
  obtain ⟨hA₀, hPB₀, hdisj⟩ := List.nodup_append.mp h
  obtain ⟨hPnB₀, hB₀⟩ := List.nodup_cons.mp hPB₀
  have hPnA₀ : P ∉ A₀ := fun hmem => hdisj hmem (List.mem_cons_self _ _)
  refine List.nodup_append.mpr ⟨hA₀.filter _, ?_, ?_⟩
  · refine List.nodup_cons.mpr ⟨?_, ?_⟩
    · intro hmem
      rcases List.mem_append.mp hmem with h1 | h1
      · exact hP (List.mem_reverse.mp h1)
      · exact hPnB₀ (mem_dropAll.mp h1).1
    · refine List.nodup_append.mpr ⟨List.nodup_reverse.mpr hs, hB₀.filter _, ?_⟩
      intro a ha hmem
      exact (mem_dropAll.mp hmem).2 (List.mem_reverse.mp ha)
  · intro a ha hmem
    obtain ⟨haA₀, hans⟩ := mem_dropAll.mp ha
    rcases List.mem_cons.mp hmem with h1 | h1
    · exact hPnA₀ (h1 ▸ haA₀)
    · rcases List.mem_append.mp h1 with h1 | h1
      · exact hans (List.mem_reverse.mp h1)
      · exact hdisj haA₀ (List.mem_cons_of_mem _ (mem_dropAll.mp h1).1)

/-- Full characterisation of a successful `stackLayers` run: no error;
the shared container holds the stacked layers as one contiguous block
at the primary (below it in resolved order for primary-on-top, above
it in reverse resolved order for primary-on-bottom) with untouched
siblings on both sides; the primary's coordinates are unchanged and
the layer at sorted index `i` is offset by the multiplier
`sorted.length - i`; every selected node ends up parented under the
target parent, nobody else's parent moves, and types/node list/other
fields are untouched. -/
theorem stackLayers_success (s : Scene) (sel : List Nat) (dx dy : Int)
    (mode : StackMode) (P par : Nat) (sorted : List Nat)
    (hwf : WFmaps s) (hlen : ¬ sel.length < 2) (hndsel : sel.Nodup)
    (hmem : ∀ x ∈ sel, x ∈ s.nodes)
    (hP : P = getTopmostLayer s sel)
    (hsorted : sorted = sortLayersByZOrder s (sel.filter (· ≠ P)))
    (hpar : s.parent P = some par)
    (hkids : (s.ntype par).hasKids = true) :
    ∃ A B,
      (stackLayers s sel dx dy mode).2 = none ∧
      (stackLayers s sel dx dy mode).1.children par =
        (match mode with
         | .primaryOnTop => A ++ (sorted ++ P :: B)
         | .primaryOnBottom => A ++ P :: (sorted.reverse ++ B)) ∧
      ((stackLayers s sel dx dy mode).1.children par).Nodup ∧
      (∀ a ∈ A, a ∉ sel) ∧ (∀ b ∈ B, b ∉ sel) ∧
      (∀ x ∈ sel, x ≠ P → x ∈ sorted) ∧ (∀ x ∈ sorted, x ∈ sel ∧ x ≠ P) ∧
      sorted.Nodup ∧
      (stackLayers s sel dx dy mode).1.xpos P = s.xpos P ∧
      (stackLayers s sel dx dy mode).1.ypos P = s.ypos P ∧
      (∀ i, (hi : i < sorted.length) →
        (stackLayers s sel dx dy mode).1.xpos sorted[i]
            = s.xpos P + dx * ((sorted.length : Int) - (i : Int)) ∧
        (stackLayers s sel dx dy mode).1.ypos sorted[i]
            = s.ypos P + dy * ((sorted.length : Int) - (i : Int))) ∧
      (∀ x ∈ sel, (stackLayers s sel dx dy mode).1.parent x = some par) ∧
      (∀ x, x ∉ sel → (stackLayers s sel dx dy mode).1.parent x = s.parent x) ∧
      (stackLayers s sel dx dy mode).1.ntype = s.ntype ∧
      (stackLayers s sel dx dy mode).1.nodes = s.nodes := by
  -- notation
  have hselne : sel ≠ [] := by
    intro h
    rw [h] at hlen
    exact hlen (by simp)
  have hPmem : P ∈ sel := hP ▸ getTopmostLayer_mem s sel hselne
  have hPn : P ∈ s.nodes := hmem P hPmem
  obtain ⟨hndn, hparn, hkidsn, hcohn⟩ := hwf
  have hparmem : par ∈ s.nodes := hparn P hPn par hpar
  have hPinpar : P ∈ s.children par := (hcohn P hPn par hparmem).mp hpar
  obtain ⟨A₀, B₀, hsplit⟩ := List.append_of_mem hPinpar
  have hndpar : (A₀ ++ P :: B₀).Nodup := hsplit ▸ (hkidsn par hparmem).1
  -- the sorted stack
  have hperm : sorted.Perm (sel.filter (· ≠ P)) :=
    hsorted ▸ List.mergeSort_perm _ _
  have hmemsorted : ∀ x, x ∈ sorted ↔ (x ∈ sel ∧ x ≠ P) := by
    intro x
    rw [hperm.mem_iff, List.mem_filter]
    simp
  have hndls : (sel.filter (· ≠ P)).Nodup := hndsel.filter _
  have hnds : sorted.Nodup := hperm.symm.nodup hndls
  have hsP : P ∉ sorted := fun h => ((hmemsorted P).mp h).2 rfl
  have hsprim : ∀ l ∈ sorted, l ≠ P := fun l hl => ((hmemsorted l).mp hl).2
  have hscoh : ∀ l ∈ sorted, s.parent l ≠ some par → l ∉ s.children par := by
    intro l hl hne hmem'
    exact hne ((hcohn l (hmem l ((hmemsorted l).mp hl).1) par hparmem).mpr hmem')
  -- the reorder characterisation, by mode
  have hreoch :
      (reorderLayers s sorted P par mode).children par =
        (match mode with
         | .primaryOnTop => dropAll A₀ sorted ++ (sorted ++ P :: dropAll B₀ sorted)
         | .primaryOnBottom =>
             dropAll A₀ sorted ++ P :: (sorted.reverse ++ dropAll B₀ sorted)) ∧
      (∀ x, x ∉ sorted → (reorderLayers s sorted P par mode).parent x = s.parent x) ∧
      (∀ l ∈ sorted, (reorderLayers s sorted P par mode).parent l = some par) := by
    cases mode
    · obtain ⟨h1, h2, h3⟩ := reorderTop_children par P sorted s A₀ B₀ hsplit hndpar
        hsprim hnds hscoh
      exact ⟨by rw [show reorderLayers s sorted P par .primaryOnTop
          = reorderPrimaryOnTop s sorted P par from rfl, h1]; simp, h2, h3⟩
    · obtain ⟨h1, h2, h3⟩ := reorderBottom_children par P sorted s A₀ B₀ hsplit hndpar
        hsprim hnds hscoh
      exact ⟨h1, h2, h3⟩
  obtain ⟨hch1, hpar2, hpar3⟩ := hreoch
  -- the run reduces to reorder-then-apply
  have hvs : validateSelection sel = none := by
    unfold validateSelection
    rw [if_neg hlen]
  have hvp : validatePrimaryLayer s P = Except.ok par := by
    unfold validatePrimaryLayer
    rw [hpar]
    simp [hkids]
  have hrun : stackLayers s sel dx dy mode =
      (applyPositions (reorderLayers s sorted P par mode)
        (calculateOffsetPositions sorted (s.xpos P) (s.ypos P) dx dy), none) := by
    unfold stackLayers
    rw [hvs]
    simp only []
    rw [← hP, hvp]
    simp only []
    rw [← hsorted]
  -- field bookkeeping
  have happ := applyPositions_fields
    (calculateOffsetPositions sorted (s.xpos P) (s.ypos P) dx dy)
    (reorderLayers s sorted P par mode)
  have hreo := reorder_fields sorted P par s
  have hreoLayers :
      (reorderLayers s sorted P par mode).xpos = s.xpos ∧
      (reorderLayers s sorted P par mode).ypos = s.ypos ∧
      (reorderLayers s sorted P par mode).ntype = s.ntype ∧
      (reorderLayers s sorted P par mode).nodes = s.nodes := by
    cases mode
    · exact hreo.1
    · exact hreo.2
  have hkeys : ((calculateOffsetPositions sorted (s.xpos P) (s.ypos P) dx dy).map
      (·.1)).Nodup := by
    rw [calcOffset_keys]
    exact hnds
  have hPkeys : ∀ e ∈ calculateOffsetPositions sorted (s.xpos P) (s.ypos P) dx dy,
      e.1 ≠ P := by
    intro e he hc
    apply hsP
    rw [← hc]
    have : e.1 ∈ (calculateOffsetPositions sorted (s.xpos P) (s.ypos P) dx dy).map
        (·.1) := List.mem_map.mpr ⟨e, he, rfl⟩
    rw [calcOffset_keys] at this
    exact this
  refine ⟨dropAll A₀ sorted, dropAll B₀ sorted, ?_, ?_, ?_, ?_, ?_, ?_, ?_, hnds,
    ?_, ?_, ?_, ?_, ?_, ?_, ?_⟩
  · rw [hrun]
  · rw [hrun]
    show (applyPositions _ _).children par = _
    rw [happ.1, hch1]
    cases mode <;> rfl
  · rw [hrun]
    show ((applyPositions _ _).children par).Nodup
    rw [happ.1, hch1]
    cases mode
    · exact nodup_block_top hndpar hnds hsP
    · exact nodup_block_bottom hndpar hnds hsP
  · intro a ha hasel
    obtain ⟨haA₀, hans⟩ := mem_dropAll.mp ha
    have hPnA₀ : P ∉ A₀ := by
      intro hmem'
      have := List.nodup_middle.mp hndpar
      exact (List.nodup_cons.mp this).1 (List.mem_append_left _ hmem')
    rcases eq_or_ne a P with h | h
    · exact hPnA₀ (h ▸ haA₀)
    · exact hans ((hmemsorted a).mpr ⟨hasel, h⟩)
  · intro b hb hbsel
    obtain ⟨hbB₀, hbns⟩ := mem_dropAll.mp hb
    have hPnB₀ : P ∉ B₀ := by
      intro hmem'
      have := List.nodup_middle.mp hndpar
      exact (List.nodup_cons.mp this).1 (List.mem_append_right _ hmem')
    rcases eq_or_ne b P with h | h
    · exact hPnB₀ (h ▸ hbB₀)
    · exact hbns ((hmemsorted b).mpr ⟨hbsel, h⟩)
  · exact fun x hx hxP => (hmemsorted x).mpr ⟨hx, hxP⟩
  · exact fun x hx => (hmemsorted x).mp hx
  · rw [hrun]
    show (applyPositions _ _).xpos P = _
    exact ((applyPositions_not_mem _ _ P hPkeys).1).trans (congrFun hreoLayers.1 P)
  · rw [hrun]
    show (applyPositions _ _).ypos P = _
    exact ((applyPositions_not_mem _ _ P hPkeys).2).trans (congrFun hreoLayers.2.1 P)
  · intro i hi
    obtain ⟨hx, hy⟩ := applyPositions_mem
      (calculateOffsetPositions sorted (s.xpos P) (s.ypos P) dx dy)
      (reorderLayers s sorted P par mode) sorted[i]
      (s.xpos P + dx * ((sorted.length : Int) - (i : Int)))
      (s.ypos P + dy * ((sorted.length : Int) - (i : Int)))
      hkeys (calcOffset_entry sorted (s.xpos P) (s.ypos P) dx dy i hi)
    constructor
    · rw [hrun]
      exact hx
    · rw [hrun]
      exact hy
  · intro x hx
    rw [hrun]
    show (applyPositions _ _).parent x = some par
    rw [congrFun happ.2.1 x]
    rcases eq_or_ne x P with h | h
    · subst h
      rw [hpar2 x hsP]
      exact hpar
    · exact hpar3 x ((hmemsorted x).mpr ⟨hx, h⟩)
  · intro x hx
    rw [hrun]
    show (applyPositions _ _).parent x = s.parent x
    rw [congrFun happ.2.1 x]
    exact hpar2 x (fun h => hx ((hmemsorted x).mp h).1)
  · rw [hrun]
    show (applyPositions _ _).ntype = s.ntype
    exact happ.2.2.1.trans hreoLayers.2.2.1
  · rw [hrun]
    show (applyPositions _ _).nodes = s.nodes
    exact happ.2.2.2.trans hreoLayers.2.2.2

/-- **C4 (amended).** After a successful run the participating nodes
form one contiguous block in the shared container, positioned at the
anchor: with AnchorOnTop the block is the resolved order bottom-to-top
with the anchor directly on top of it (anchor above every participant,
participants preserving their resolved relative order beneath it);
with AnchorOnBottom the anchor sits directly below the block and the
other participants appear above it in **reverse** resolved order. The
anchor is extremal only **among the participants**: non-participating
siblings of the container stay on their side of the block, so the
anchor need not have the globally highest (resp. lowest) sibling
index. -/
theorem C4_sibling_block (s : Scene) (sel : List Nat) (dx dy : Int)
    (mode : StackMode) (par : Nat)
    (hwf : WFmaps s) (hlen : ¬ sel.length < 2) (hndsel : sel.Nodup)
    (hmem : ∀ x ∈ sel, x ∈ s.nodes)
    (hpar : s.parent (getTopmostLayer s sel) = some par)
    (hkids : (s.ntype par).hasKids = true) :
    ∃ A B,
      (stackLayers s sel dx dy mode).2 = none ∧
      (stackLayers s sel dx dy mode).1.children par =
        (match mode with
         | .primaryOnTop =>
             A ++ (sortLayersByZOrder s
                 (sel.filter (· ≠ getTopmostLayer s sel))
               ++ getTopmostLayer s sel :: B)
         | .primaryOnBottom =>
             A ++ getTopmostLayer s sel ::
               ((sortLayersByZOrder s
                 (sel.filter (· ≠ getTopmostLayer s sel))).reverse ++ B)) ∧
      (∀ a ∈ A, a ∉ sel) ∧ (∀ b ∈ B, b ∉ sel) := by
  obtain ⟨A, B, h0, hch, _, hA, hB, _⟩ :=
    stackLayers_success s sel dx dy mode (getTopmostLayer s sel) par
      (sortLayersByZOrder s (sel.filter (· ≠ getTopmostLayer s sel)))
      hwf hlen hndsel hmem rfl rfl hpar hkids
  exact ⟨A, B, h0, hch, hA, hB⟩

/-- Witness for C4 (amended): stacking `{3, 5, 6}` of `sceneCross`. -/
theorem C4_witness :
    WFmaps sceneCross ∧ ¬ ([3, 5, 6] : List Nat).length < 2 ∧
      ([3, 5, 6] : List Nat).Nodup ∧
      (∀ x ∈ ([3, 5, 6] : List Nat), x ∈ sceneCross.nodes) ∧
      sceneCross.parent (getTopmostLayer sceneCross [3, 5, 6]) = some 2 ∧
      (sceneCross.ntype 2).hasKids = true ∧
      (∃ A B,
        (stackLayers sceneCross [3, 5, 6] 8 8 .primaryOnTop).2 = none ∧
        (stackLayers sceneCross [3, 5, 6] 8 8 .primaryOnTop).1.children 2 =
          A ++ (sortLayersByZOrder sceneCross
              ([3, 5, 6].filter (· ≠ getTopmostLayer sceneCross [3, 5, 6]))
            ++ getTopmostLayer sceneCross [3, 5, 6] :: B) ∧
        (∀ a ∈ A, a ∉ ([3, 5, 6] : List Nat)) ∧
        (∀ b ∈ B, b ∉ ([3, 5, 6] : List Nat))) :=
  ⟨by decide, by decide, by decide, by decide, by decide, by decide,
    C4_sibling_block sceneCross [3, 5, 6] 8 8 .primaryOnTop 2
      (by decide) (by decide) (by decide) (by decide) (by decide) (by decide)⟩

/-- **C4 counterexample.** The claim as stated says the anchor ends up
with the highest sibling index in its container under AnchorOnTop. On
`sceneSib` with selection {1, 2}, the unselected sibling 3 stays above
the anchor 2: the final container is `[1, 2, 3]` and the anchor's
sibling index is 1, not the highest index 2. -/
theorem C4_counterexample :
    getTopmostLayer sceneSib [1, 2] = 2 ∧
      (stackLayers sceneSib [1, 2] 8 8 .primaryOnTop).2 = none ∧
      (stackLayers sceneSib [1, 2] 8 8 .primaryOnTop).1.children 0 = [1, 2, 3] ∧
      jsIndexOf ((stackLayers sceneSib [1, 2] 8 8 .primaryOnTop).1.children 0) 2 ≠
        (((stackLayers sceneSib [1, 2] 8 8 .primaryOnTop).1.children 0).length : Int)
          - 1 := by
  decide

/-- Splitting a list at a position. -/
theorem split_at_getElem {lst : List Nat} {i : Nat} (hi : i < lst.length) :
    lst = lst.take i ++ lst[i] :: lst.drop (i + 1) := by
  conv_lhs => rw [← List.take_append_drop i lst]
  rw [List.drop_eq_getElem_cons hi]

/-- In a duplicate-free list, the element at `i` occurs neither before
nor after position `i`. -/
theorem not_mem_take_drop {lst : List Nat} {i : Nat} (hnd : lst.Nodup)
    (hi : i < lst.length) :
    lst[i] ∉ lst.take i ∧ lst[i] ∉ lst.drop (i + 1) := by
  have h : (lst.take i ++ lst[i] :: lst.drop (i + 1)).Nodup := by
    rw [← split_at_getElem hi]
    exact hnd
  have h2 := (List.nodup_cons.mp (List.nodup_middle.mp h)).1
  exact ⟨fun hm => h2 (List.mem_append_left _ hm),
    fun hm => h2 (List.mem_append_right _ hm)⟩

/-- **C1.** After a successful run, every participating non-anchor node
sits at coordinates `anchor + offset * rank`, where `rank` is its
1-based sibling-index distance from the anchor inside the shared
container, measured along the final z order in the direction away from
the anchor (below the anchor for AnchorOnTop, above it for
AnchorOnBottom); and the anchor's own coordinates are unchanged. -/
theorem C1_stack_positions (s : Scene) (sel : List Nat) (dx dy : Int)
    (mode : StackMode) (par : Nat)
    (hwf : WFmaps s) (hlen : ¬ sel.length < 2) (hndsel : sel.Nodup)
    (hmem : ∀ x ∈ sel, x ∈ s.nodes)
    (hpar : s.parent (getTopmostLayer s sel) = some par)
    (hkids : (s.ntype par).hasKids = true) :
    (stackLayers s sel dx dy mode).2 = none ∧
    (stackLayers s sel dx dy mode).1.xpos (getTopmostLayer s sel)
      = s.xpos (getTopmostLayer s sel) ∧
    (stackLayers s sel dx dy mode).1.ypos (getTopmostLayer s sel)
      = s.ypos (getTopmostLayer s sel) ∧
    ∀ x ∈ sel, x ≠ getTopmostLayer s sel →
      ∃ rank : Int, 1 ≤ rank ∧
        rank = (match mode with
          | .primaryOnTop =>
              jsIndexOf ((stackLayers s sel dx dy mode).1.children par)
                  (getTopmostLayer s sel)
                - jsIndexOf ((stackLayers s sel dx dy mode).1.children par) x
          | .primaryOnBottom =>
              jsIndexOf ((stackLayers s sel dx dy mode).1.children par) x
                - jsIndexOf ((stackLayers s sel dx dy mode).1.children par)
                    (getTopmostLayer s sel)) ∧
        (stackLayers s sel dx dy mode).1.xpos x
          = s.xpos (getTopmostLayer s sel) + dx * rank ∧
        (stackLayers s sel dx dy mode).1.ypos x
          = s.ypos (getTopmostLayer s sel) + dy * rank := by
  obtain ⟨A, B, h0, hch, hndK, hA, hB, hsel2s, hs2sel, hnds, hxP, hyP, hcoords,
    hparents, hparout, hnt, hnn⟩ :=
    stackLayers_success s sel dx dy mode (getTopmostLayer s sel) par
      (sortLayersByZOrder s (sel.filter (· ≠ getTopmostLayer s sel)))
      hwf hlen hndsel hmem rfl rfl hpar hkids
  refine ⟨h0, hxP, hyP, ?_⟩
  intro x hx hxne
  have hselne : sel ≠ [] := by
    intro h
    rw [h] at hlen
    exact hlen (by simp)
  have hPmem : getTopmostLayer s sel ∈ sel := getTopmostLayer_mem s sel hselne
  have hxs : x ∈ sortLayersByZOrder s (sel.filter (· ≠ getTopmostLayer s sel)) :=
    hsel2s x hx hxne
  obtain ⟨i, hi, hxi⟩ := List.getElem_of_mem hxs
  set P := getTopmostLayer s sel
  set sorted := sortLayersByZOrder s (sel.filter (· ≠ P)) with hsdef
  have hPs : P ∉ sorted := fun h => (hs2sel P h).2 rfl
  have hPA : P ∉ A := fun h => hA P h hPmem
  have hxA : x ∉ A := fun h => hA x h hx
  have hnmem := not_mem_take_drop hnds hi
  rw [hxi] at hnmem
  have hsplit := split_at_getElem hi
  rw [hxi] at hsplit
  obtain ⟨hcx, hcy⟩ := hcoords i hi
  rw [hxi] at hcx hcy
  refine ⟨(sorted.length : Int) - (i : Int), by omega, ?_, hcx, hcy⟩
  cases mode with
  | primaryOnTop =>
    have hKeq : (stackLayers s sel dx dy .primaryOnTop).1.children par
        = A ++ (sorted ++ P :: B) := hch
    have hidxP : jsIndexOf ((stackLayers s sel dx dy .primaryOnTop).1.children par) P
        = ((A.length + sorted.length : Nat) : Int) := by
      rw [hKeq]
      have hshape : A ++ (sorted ++ P :: B) = (A ++ sorted) ++ P :: B := by simp
      rw [hshape, jsIndexOf_split (by
        intro h
        rcases List.mem_append.mp h with h | h
        · exact hPA h
        · exact hPs h)]
      simp
    have hidxx : jsIndexOf ((stackLayers s sel dx dy .primaryOnTop).1.children par) x
        = ((A.length + i : Nat) : Int) := by
      rw [hKeq]
      have hshape : A ++ (sorted ++ P :: B)
          = (A ++ sorted.take i) ++ x :: (sorted.drop (i + 1) ++ P :: B) := by
        conv_lhs => rw [hsplit]
        simp
      rw [hshape, jsIndexOf_split (by
        intro h
        rcases List.mem_append.mp h with h | h
        · exact hxA h
        · exact hnmem.1 h)]
      simp [Nat.min_eq_left (Nat.le_of_lt hi)]
    rw [hidxP, hidxx]
    push_cast
    ring
  | primaryOnBottom =>
    have hKeq : (stackLayers s sel dx dy .primaryOnBottom).1.children par
        = A ++ P :: (sorted.reverse ++ B) := hch
    have hidxP : jsIndexOf ((stackLayers s sel dx dy .primaryOnBottom).1.children par) P
        = (A.length : Int) := by
      rw [hKeq, jsIndexOf_split hPA]
    have hidxx : jsIndexOf ((stackLayers s sel dx dy .primaryOnBottom).1.children par) x
        = ((A.length + 1 + (sorted.length - (i + 1)) : Nat) : Int) := by
      rw [hKeq]
      have hrev : sorted.reverse
          = (sorted.drop (i + 1)).reverse ++ x :: (sorted.take i).reverse := by
        conv_lhs => rw [hsplit]
        simp
      have hshape : A ++ P :: (sorted.reverse ++ B)
          = (A ++ P :: (sorted.drop (i + 1)).reverse)
              ++ x :: ((sorted.take i).reverse ++ B) := by
        rw [hrev]
        simp [List.append_assoc]
      rw [hshape, jsIndexOf_split (by
        intro h
        rcases List.mem_append.mp h with h | h
        · exact hxA h
        · rcases List.mem_cons.mp h with h | h
          · exact hxne h
          · exact hnmem.2 (List.mem_reverse.mp h))]
      simp
      omega
    rw [hidxP, hidxx]
    have : i + 1 ≤ sorted.length := hi
    push_cast [Nat.cast_sub]
    omega

/-- Witness for C1: stacking `{3, 5, 6}` of `sceneCross` with offset
`(8, 8)`. -/
theorem C1_witness :
    WFmaps sceneCross ∧ ¬ ([3, 5, 6] : List Nat).length < 2 ∧
      ([3, 5, 6] : List Nat).Nodup ∧
      (∀ x ∈ ([3, 5, 6] : List Nat), x ∈ sceneCross.nodes) ∧
      sceneCross.parent (getTopmostLayer sceneCross [3, 5, 6]) = some 2 ∧
      (sceneCross.ntype 2).hasKids = true ∧
      ((stackLayers sceneCross [3, 5, 6] 8 8 .primaryOnTop).2 = none ∧
      (stackLayers sceneCross [3, 5, 6] 8 8 .primaryOnTop).1.xpos
          (getTopmostLayer sceneCross [3, 5, 6])
        = sceneCross.xpos (getTopmostLayer sceneCross [3, 5, 6]) ∧
      (stackLayers sceneCross [3, 5, 6] 8 8 .primaryOnTop).1.ypos
          (getTopmostLayer sceneCross [3, 5, 6])
        = sceneCross.ypos (getTopmostLayer sceneCross [3, 5, 6]) ∧
      ∀ x ∈ ([3, 5, 6] : List Nat), x ≠ getTopmostLayer sceneCross [3, 5, 6] →
        ∃ rank : Int, 1 ≤ rank ∧
          rank = jsIndexOf
                ((stackLayers sceneCross [3, 5, 6] 8 8 .primaryOnTop).1.children 2)
                (getTopmostLayer sceneCross [3, 5, 6])
              - jsIndexOf
                ((stackLayers sceneCross [3, 5, 6] 8 8 .primaryOnTop).1.children 2) x ∧
          (stackLayers sceneCross [3, 5, 6] 8 8 .primaryOnTop).1.xpos x
            = sceneCross.xpos (getTopmostLayer sceneCross [3, 5, 6]) + 8 * rank ∧
          (stackLayers sceneCross [3, 5, 6] 8 8 .primaryOnTop).1.ypos x
            = sceneCross.ypos (getTopmostLayer sceneCross [3, 5, 6]) + 8 * rank) :=
  ⟨by decide, by decide, by decide, by decide, by decide, by decide,
    C1_stack_positions sceneCross [3, 5, 6] 8 8 .primaryOnTop 2
      (by decide) (by decide) (by decide) (by decide) (by decide) (by decide)⟩

/-! ### The comparator as a lexicographic comparison of index paths -/

/-- A node's sibling index inside its parent's children list (`-1` for
a parentless node, mirroring `indexOf`). -/
def sibIdx (s : Scene) (x : Nat) : Int :=
  match s.parent x with
  | some q => jsIndexOf (s.children q) x
  | none => -1

/-- First-difference comparison of two ancestor paths: walk the common
node prefix; at the first difference compare sibling indices; a path
that is a prefix of the other compares equal. -/
def cmpPaths (s : Scene) : List Nat → List Nat → Int
  | a :: as, b :: bs =>
    if a = b then cmpPaths s as bs else sibIdx s a - sibIdx s b
  | _, _ => 0

/-- Length of the common node prefix of two lists. -/
def ncp : List Nat → List Nat → Nat
  | a :: as, b :: bs => if a = b then ncp as bs + 1 else 0
  | _, _ => 0

theorem cmpPaths_self (s : Scene) : ∀ l, cmpPaths s l l = 0 := by
  intro l
  induction l with
  | nil => rfl
  | cons a l ih => simp [cmpPaths, ih]

theorem cmpPaths_antisymm (s : Scene) : ∀ u v, cmpPaths s u v = - cmpPaths s v u := by
  intro u
  induction u with
  | nil =>
    intro v
    cases v <;> simp [cmpPaths]
  | cons a u ih =>
    intro v
    cases v with
    | nil => simp [cmpPaths]
    | cons b v =>
      by_cases h : a = b
      · subst h
        simp [cmpPaths, ih v]
      · have h' : ¬ (b = a) := fun hh => h hh.symm
        simp [cmpPaths, h, h']

theorem cmpPaths_trans_neg (s : Scene) :
    ∀ u v w, cmpPaths s u v < 0 → cmpPaths s v w < 0 → cmpPaths s u w < 0 := by
  intro u
  induction u with
  | nil => intro v w h1; simp [cmpPaths] at h1
  | cons a u ih =>
    intro v w h1 h2
    cases v with
    | nil => simp [cmpPaths] at h1
    | cons b v =>
      cases w with
      | nil => simp [cmpPaths] at h2
      | cons c w =>
        by_cases hab : a = b
        · subst hab
          rw [cmpPaths, if_pos rfl] at h1
          by_cases hbc : a = c
          · subst hbc
            rw [cmpPaths, if_pos rfl] at h2
            rw [cmpPaths, if_pos rfl]
            exact ih v w h1 h2
          · rw [cmpPaths, if_neg hbc] at h2
            rw [cmpPaths, if_neg hbc]
            exact h2
        · rw [cmpPaths, if_neg hab] at h1
          by_cases hbc : b = c
          · subst hbc
            rw [cmpPaths, if_neg hab]
            exact h1
          · rw [cmpPaths, if_neg hbc] at h2
            have hac : a ≠ c := by
              intro h
              subst h
              omega
            rw [cmpPaths, if_neg hac]
            omega

theorem cmpPaths_append_left (s : Scene) :
    ∀ L u v, cmpPaths s (L ++ u) (L ++ v) = cmpPaths s u v := by
  intro L
  induction L with
  | nil => intro u v; rfl
  | cons a L ih => intro u v; simp [cmpPaths, ih]

/-- `cmpPaths` computed through the common-prefix length. -/
theorem cmpPaths_eq_ncp (s : Scene) :
    ∀ u v, cmpPaths s u v =
      if ncp u v < min u.length v.length
      then sibIdx s (u.getD (ncp u v) 0) - sibIdx s (v.getD (ncp u v) 0)
      else 0 := by
  intro u
  induction u with
  | nil =>
    intro v
    cases v <;> simp [cmpPaths, ncp]
  | cons a u ih =>
    intro v
    cases v with
    | nil => simp [cmpPaths, ncp]
    | cons b v =>
      by_cases h : a = b
      · subst h
        rw [cmpPaths, if_pos rfl, ncp, if_pos rfl, ih v]
        by_cases hlt : ncp u v < min u.length v.length
        · rw [if_pos hlt, if_pos (by simp; omega)]
          rfl
        · rw [if_neg hlt, if_neg (by simp; omega)]
      · rw [cmpPaths, if_neg h, ncp, if_neg h, if_pos (by simp)]
        rfl

/-- Entries of the common prefix agree. -/
theorem ncp_agree : ∀ (u v : List Nat) (j : Nat), j < ncp u v →
    u.getD j 0 = v.getD j 0 := by
  intro u
  induction u with
  | nil => intro v j h; simp [ncp] at h
  | cons a u ih =>
    intro v j h
    cases v with
    | nil => simp [ncp] at h
    | cons b v =>
      by_cases hab : a = b
      · rw [ncp, if_pos hab] at h
        cases j with
        | zero => simpa using hab
        | succ j => exact ih v j (by omega)
      · rw [ncp, if_neg hab] at h
        omega

/-- The entries just past the common prefix differ. -/
theorem ncp_diff : ∀ (u v : List Nat), ncp u v < min u.length v.length →
    u.getD (ncp u v) 0 ≠ v.getD (ncp u v) 0 := by
  intro u
  induction u with
  | nil => intro v h; simp at h
  | cons a u ih =>
    intro v h
    cases v with
    | nil => simp at h
    | cons b v =>
      by_cases hab : a = b
      · rw [ncp, if_pos hab] at h ⊢
        exact ih v (by simp at h; omega)
      · rw [ncp, if_neg hab] at h ⊢
        simpa using hab

/-- The `commonLevel` loop computes one past the common node prefix,
capped at the shorter path length, whenever both lists are
parent-linked chains whose heads share a parent. -/
theorem commonLevel_eq (s : Scene) :
    ∀ (u v : List Nat),
      List.Chain' (fun x y => s.parent y = some x) u →
      List.Chain' (fun x y => s.parent y = some x) v →
      (∀ x y, u.head? = some x → v.head? = some y → s.parent x = s.parent y) →
      commonLevel s u v = min (ncp u v + 1) (min u.length v.length) := by
  intro u
  induction u with
  | nil =>
    intro v _ _ _
    cases v <;> simp [commonLevel]
  | cons a u ih =>
    intro v hcu hcv hhead
    cases v with
    | nil => simp [commonLevel]
    | cons b v =>
      have hpar : s.parent a = s.parent b := hhead a b rfl rfl
      rw [commonLevel, if_pos hpar]
      by_cases hab : a = b
      · subst hab
        rw [ncp, if_pos rfl]
        have hhead' : ∀ x y, u.head? = some x → v.head? = some y →
            s.parent x = s.parent y := by
          intro x y hx hy
          have h1 : s.parent x = some a := by
            cases u with
            | nil => simp at hx
            | cons a' u' =>
              simp at hx
              exact hx ▸ (List.chain'_cons.mp hcu).1
          have h2 : s.parent y = some a := by
            cases v with
            | nil => simp at hy
            | cons b' v' =>
              simp at hy
              exact hy ▸ (List.chain'_cons.mp hcv).1
          rw [h1, h2]
        rw [ih v hcu.tail hcv.tail hhead']
        simp only [List.length_cons]
        omega
      · rw [ncp, if_neg hab]
        have hcl0 : commonLevel s u v = 0 := by
          cases u with
          | nil => rfl
          | cons a' u' =>
            cases v with
            | nil => rfl
            | cons b' v' =>
              have ha' : s.parent a' = some a := (List.chain'_cons.mp hcu).1
              have hb' : s.parent b' = some b := (List.chain'_cons.mp hcv).1
              rw [commonLevel, if_neg]
              rw [ha', hb']
              simp [hab]
        rw [hcl0]
        simp only [List.length_cons]
        omega

theorem getD_mem {l : List Nat} {j : Nat} (h : j < l.length) : l.getD j 0 ∈ l := by
  rw [List.getD_eq_getElem l 0 h]
  exact List.getElem_mem h

theorem head?_getD {l : List Nat} (h : l ≠ []) : l.head? = some (l.getD 0 0) := by
  cases l with
  | nil => exact absurd rfl h
  | cons a t => rfl

theorem chain_getD {s : Scene} {l : List Nat}
    (hch : List.Chain' (fun x y => s.parent y = some x) l) {j : Nat}
    (hj : j + 1 < l.length) :
    s.parent (l.getD (j + 1) 0) = some (l.getD j 0) := by
  have hrel := List.chain'_iff_get.mp hch j (by omega)
  rw [List.getD_eq_getElem l 0 hj,
    List.getD_eq_getElem l 0 (show j < l.length by omega)]
  exact hrel

/-- Zeta-reduced form of the cross-parent branch. -/
theorem compareZOrderCross_eq (s : Scene) (l1 l2 : Nat) :
    compareZOrderCross s l1 l2 =
      (if commonLevel s (getAncestorPath s l1) (getAncestorPath s l2) = 0 then 0
       else
        match s.parent ((getAncestorPath s l1).getD
            (commonLevel s (getAncestorPath s l1) (getAncestorPath s l2) - 1) 0),
          s.parent ((getAncestorPath s l2).getD
            (commonLevel s (getAncestorPath s l1) (getAncestorPath s l2) - 1) 0) with
        | some q1, some q2 =>
          if q1 = q2 then
            jsIndexOf (s.children q1) ((getAncestorPath s l1).getD
                (commonLevel s (getAncestorPath s l1) (getAncestorPath s l2) - 1) 0)
              - jsIndexOf (s.children q1) ((getAncestorPath s l2).getD
                (commonLevel s (getAncestorPath s l1) (getAncestorPath s l2) - 1) 0)
          else 0
        | _, _ => 0) := rfl

/-- **The comparator formula.** For two nodes inside the tree of one
page, `compareZOrder` is exactly the first-difference comparison of
their ancestor paths: walk both paths from the top; at the first level
where they hold different nodes compare those nodes' sibling indices;
if one path is a prefix of the other (one node is an ancestor of the
other, or they are equal) the result is `0`. -/
theorem compareZOrder_eq_cmpPaths {s : Scene} {pg : Nat} (a b : Nat)
    (ha : inTreeOf s pg a) (hb : inTreeOf s pg b) :
    compareZOrder s a b = cmpPaths s (getAncestorPath s a) (getAncestorPath s b) := by
  obtain ⟨pa, hpa⟩ := reaches_parent_some ha
  obtain ⟨pb, hpb⟩ := reaches_parent_some hb
  by_cases hab : a = b
  · subst hab
    rw [cmpPaths_self]
    unfold compareZOrder
    rw [hpa]
    simp
  · by_cases hpp : pa = pb
    · subst hpp
      have hLHS : compareZOrder s a b
          = jsIndexOf (s.children pa) a - jsIndexOf (s.children pa) b := by
        unfold compareZOrder
        rw [hpa, hpb]
        simp
      rw [hLHS]
      by_cases hpage : s.ntype pa = NType.page
      · rw [getAncestorPath_base hpa hpage, getAncestorPath_base hpb hpage]
        rw [cmpPaths, if_neg hab]
        unfold sibIdx
        rw [hpa, hpb]
      · rw [getAncestorPath_step ha hpa hpage, getAncestorPath_step hb hpb hpage,
          cmpPaths_append_left, cmpPaths, if_neg hab]
        unfold sibIdx
        rw [hpa, hpb]
    · have hLHS : compareZOrder s a b = compareZOrderCross s a b := by
        unfold compareZOrder
        rw [hpa, hpb]
        simp only []
        rw [if_neg hpp]
      rw [hLHS, compareZOrderCross_eq]
      have hchA : List.Chain' (fun x y => s.parent y = some x) (getAncestorPath s a) :=
        gapAux_chain s _ a
      have hchB : List.Chain' (fun x y => s.parent y = some x) (getAncestorPath s b) :=
        gapAux_chain s _ b
      have hheads : ∀ x y, (getAncestorPath s a).head? = some x →
          (getAncestorPath s b).head? = some y → s.parent x = s.parent y := by
        intro x y hx hy
        rw [gapAux_head_parent ha x hx, gapAux_head_parent hb y hy]
      have hneA : getAncestorPath s a ≠ [] := by
        intro h
        have := gapAux_last_of_reaches ha
        rw [show gapAux s (s.nodes.length + 1) a [] = getAncestorPath s a from rfl,
          h] at this
        simp at this
      have hneB : getAncestorPath s b ≠ [] := by
        intro h
        have := gapAux_last_of_reaches hb
        rw [show gapAux s (s.nodes.length + 1) b [] = getAncestorPath s b from rfl,
          h] at this
        simp at this
      have hlenA : 1 ≤ (getAncestorPath s a).length := by
        cases hA : getAncestorPath s a with
        | nil => exact absurd hA hneA
        | cons x t => simp
      have hlenB : 1 ≤ (getAncestorPath s b).length := by
        cases hB : getAncestorPath s b with
        | nil => exact absurd hB hneB
        | cons x t => simp
      have hcl : commonLevel s (getAncestorPath s a) (getAncestorPath s b)
          = min (ncp (getAncestorPath s a) (getAncestorPath s b) + 1)
              (min (getAncestorPath s a).length (getAncestorPath s b).length) :=
        commonLevel_eq s _ _ hchA hchB hheads
      set Pa := getAncestorPath s a with hPa
      set Pb := getAncestorPath s b with hPb
      set k := ncp Pa Pb with hk
      set m := min Pa.length Pb.length with hmm
      have hm1 : 1 ≤ m := by omega
      clear_value Pa Pb
      -- common sub-fact: equal parents (both `some`) at the branch point,
      -- whenever the branch position is inside the common prefix or at its end
      rw [hcl]
      by_cases hkm : k < m
      · have hclv : min (k + 1) m = k + 1 := by omega
        rw [hclv, if_neg (by omega)]
        simp only [Nat.add_sub_cancel]
        have hdiff : Pa.getD k 0 ≠ Pb.getD k 0 := ncp_diff Pa Pb (by omega)
        have hq : ∃ q, s.parent (Pa.getD k 0) = some q ∧
            s.parent (Pb.getD k 0) = some q := by
          cases hk0 : k with
          | zero =>
            refine ⟨pg, ?_, ?_⟩
            · apply gapAux_head_parent ha
              rw [show gapAux s (s.nodes.length + 1) a []
                  = getAncestorPath s a from rfl, ← hPa]
              exact head?_getD hneA
            · apply gapAux_head_parent hb
              rw [show gapAux s (s.nodes.length + 1) b []
                  = getAncestorPath s b from rfl, ← hPb]
              exact head?_getD hneB
          | succ j =>
            have hagree : Pa.getD j 0 = Pb.getD j 0 := by
              apply ncp_agree
              omega
            refine ⟨Pa.getD j 0, ?_, ?_⟩
            · exact chain_getD hchA (by omega)
            · rw [hagree]
              exact chain_getD hchB (by omega)
        obtain ⟨q, hq1, hq2⟩ := hq
        rw [hq1, hq2]
        simp only [if_pos rfl]
        rw [cmpPaths_eq_ncp s Pa Pb, ← hk, ← hmm, if_pos hkm]
        unfold sibIdx
        rw [hq1, hq2]
        simp
      · have hclv : min (k + 1) m = m := by omega
        rw [hclv, if_neg (by omega)]
        have hagree : Pa.getD (m - 1) 0 = Pb.getD (m - 1) 0 := by
          apply ncp_agree
          omega
        have hmemA : Pa.getD (m - 1) 0 ∈ Pa := getD_mem (by omega)
        have hmemA' : Pa.getD (m - 1) 0 ∈ gapAux s (s.nodes.length + 1) a [] := by
          rw [show gapAux s (s.nodes.length + 1) a []
              = getAncestorPath s a from rfl, ← hPa]
          exact hmemA
        obtain ⟨q, hq1⟩ := gapAux_mem_parent s _ a _ hmemA'
        have hq2 : s.parent (Pb.getD (m - 1) 0) = some q := by
          rw [← hagree]
          exact hq1
        rw [hq1, hq2]
        simp only [if_pos rfl]
        rw [hagree]
        rw [cmpPaths_eq_ncp s Pa Pb, ← hk, ← hmm, if_neg hkm]
        simp

/-- **C3 (amended).** Over any single page's tree the z-order
comparator is antisymmetric — `compare(a,b)` is exactly the negation
of `compare(b,a)`, so the two always have opposite signs or are both
zero — and the strict order it induces is transitive. (Equality is
**not** transitive: an ancestor compares equal to its descendants, see
the counterexample.) -/
theorem C3_antisymm_trans (s : Scene) (pg a b c : Nat)
    (ha : inTreeOf s pg a) (hb : inTreeOf s pg b) (hc : inTreeOf s pg c) :
    compareZOrder s a b = - compareZOrder s b a ∧
    (compareZOrder s a b < 0 → compareZOrder s b c < 0 →
      compareZOrder s a c < 0) := by
  constructor
  · rw [compareZOrder_eq_cmpPaths a b ha hb, compareZOrder_eq_cmpPaths b a hb ha]
    exact cmpPaths_antisymm s _ _
  · intro h1 h2
    rw [compareZOrder_eq_cmpPaths a b ha hb] at h1
    rw [compareZOrder_eq_cmpPaths b c hb hc] at h2
    rw [compareZOrder_eq_cmpPaths a c ha hc]
    exact cmpPaths_trans_neg s _ _ _ h1 h2

/-- Witness for C3 (amended) on the two-frame tree `sceneCross`. -/
theorem C3_witness :
    inTreeOf sceneCross 0 3 ∧ inTreeOf sceneCross 0 5 ∧ inTreeOf sceneCross 0 6 ∧
      (compareZOrder sceneCross 3 5 = - compareZOrder sceneCross 5 3 ∧
      (compareZOrder sceneCross 3 5 < 0 → compareZOrder sceneCross 5 6 < 0 →
        compareZOrder sceneCross 3 6 < 0)) :=
  ⟨by decide, by decide, by decide,
    C3_antisymm_trans sceneCross 0 3 5 6 (by decide) (by decide) (by decide)⟩

/-- **C3 counterexample.** Equality is not transitive on a single
tree: in `sceneNest` (page 0 → frame 1 → rects 2, 3), the frame
compares equal to both of its children — `compare(2,1) = 0` and
`compare(1,3) = 0` — yet `compare(2,3) < 0`. -/
theorem C3_counterexample :
    inTreeOf sceneNest 0 1 ∧ inTreeOf sceneNest 0 2 ∧ inTreeOf sceneNest 0 3 ∧
      compareZOrder sceneNest 2 1 = 0 ∧ compareZOrder sceneNest 1 3 = 0 ∧
      compareZOrder sceneNest 2 3 < 0 := by
  decide

/-! ### Sortedness of the JS sort with only selection-local hypotheses

The library lemma about `List.mergeSort` wants transitivity and
totality of the comparison over the whole type; the z-order comparator
only has them over the nodes actually being sorted, so the sortedness
proof is redone here with membership-relativised hypotheses, following
the library's induction structure. -/

theorem merge_pairwise_mem (le : Nat → Nat → Bool) :
    ∀ (l₁ l₂ : List Nat),
      (∀ a ∈ l₁ ++ l₂, ∀ b ∈ l₁ ++ l₂, ∀ c ∈ l₁ ++ l₂,
        le a b = true → le b c = true → le a c = true) →
      (∀ a ∈ l₁ ++ l₂, ∀ b ∈ l₁ ++ l₂, le a b = true ∨ le b a = true) →
      l₁.Pairwise (fun a b => le a b = true) →
      l₂.Pairwise (fun a b => le a b = true) →
      (List.merge l₁ l₂ le).Pairwise (fun a b => le a b = true) := by
  intro l₁
  induction l₁ with
  | nil => intro l₂ _ _ _ h₂; simpa using h₂
  | cons x l₁ ih₁ =>
    intro l₂
    induction l₂ with
    | nil => intro _ _ h₁ _; simpa using h₁
    | cons y l₂ ih₂ =>
      intro htrans htotal h₁ h₂
      have hwk1 : ∀ a, a ∈ l₁ ++ (y :: l₂) → a ∈ (x :: l₁) ++ (y :: l₂) := by
        intro a ha
        rcases List.mem_append.mp ha with h' | h'
        · exact List.mem_append_left _ (List.mem_cons_of_mem _ h')
        · exact List.mem_append_right _ h'
      have hwk2 : ∀ a, a ∈ (x :: l₁) ++ l₂ → a ∈ (x :: l₁) ++ (y :: l₂) := by
        intro a ha
        rcases List.mem_append.mp ha with h' | h'
        · exact List.mem_append_left _ h'
        · exact List.mem_append_right _ (List.mem_cons_of_mem _ h')
      rw [List.merge]
      split
      next h =>
        apply List.Pairwise.cons
        · intro z hz
          rw [List.mem_merge] at hz
          have hzmem : z ∈ (x :: l₁) ++ (y :: l₂) := by
            rcases hz with hz | hz
            · exact List.mem_append_left _ (List.mem_cons_of_mem _ hz)
            · exact List.mem_append_right _ hz
          rcases hz with hz | hz
          · exact List.rel_of_pairwise_cons h₁ hz
          · rcases List.mem_cons.mp hz with hz | hz
            · exact hz ▸ h
            · exact htrans x (by simp) y (by simp) z hzmem h
                (List.rel_of_pairwise_cons h₂ hz)
        · exact ih₁ (y :: l₂)
            (fun a ha b hb c hc => htrans a (hwk1 a ha) b (hwk1 b hb) c (hwk1 c hc))
            (fun a ha b hb => htotal a (hwk1 a ha) b (hwk1 b hb))
            h₁.of_cons h₂
      next h =>
        apply List.Pairwise.cons
        · intro z hz
          rw [List.mem_merge] at hz
          have hzmem : z ∈ (x :: l₁) ++ (y :: l₂) := by
            rcases hz with hz | hz
            · exact List.mem_append_left _ hz
            · exact List.mem_append_right _ (List.mem_cons_of_mem _ hz)
          have hyx : le y x = true := by
            rcases htotal x (by simp) y (by simp) with h' | h'
            · exact absurd h' (by simpa using h)
            · exact h'
          rcases hz with hz | hz
          · rcases List.mem_cons.mp hz with hz | hz
            · exact hz ▸ hyx
            · exact htrans y (by simp) x (by simp) z hzmem hyx
                (List.rel_of_pairwise_cons h₁ hz)
          · exact List.rel_of_pairwise_cons h₂ hz
        · exact ih₂
            (fun a ha b hb c hc => htrans a (hwk2 a ha) b (hwk2 b hb) c (hwk2 c hc))
            (fun a ha b hb => htotal a (hwk2 a ha) b (hwk2 b hb))
            h₁ h₂.of_cons

theorem mergeSort_pairwise_mem (le : Nat → Nat → Bool) :
    ∀ (l : List Nat),
      (∀ a ∈ l, ∀ b ∈ l, ∀ c ∈ l, le a b = true → le b c = true → le a c = true) →
      (∀ a ∈ l, ∀ b ∈ l, le a b = true ∨ le b a = true) →
      (l.mergeSort le).Pairwise (fun a b => le a b = true)
  | [], _, _ => by simp
  | [a], _, _ => by simp
  | a :: b :: xs, htrans, htotal => by
    have hlen1 : (List.splitInTwo ⟨a :: b :: xs, rfl⟩).1.1.length < xs.length + 1 + 1 := by
      simp [List.splitInTwo_fst]
      omega
    have hlen2 : (List.splitInTwo ⟨a :: b :: xs, rfl⟩).2.1.length < xs.length + 1 + 1 := by
      simp [List.splitInTwo_snd]
      omega
    have hsub1 : ∀ z ∈ (List.splitInTwo ⟨a :: b :: xs, rfl⟩).1.1, z ∈ a :: b :: xs := by
      intro z hz
      rw [List.splitInTwo_fst] at hz
      exact List.mem_of_mem_take hz
    have hsub2 : ∀ z ∈ (List.splitInTwo ⟨a :: b :: xs, rfl⟩).2.1, z ∈ a :: b :: xs := by
      intro z hz
      rw [List.splitInTwo_snd] at hz
      exact List.mem_of_mem_drop hz
    have hs1 := mergeSort_pairwise_mem le (List.splitInTwo ⟨a :: b :: xs, rfl⟩).1.1
      (fun u hu v hv w hw => htrans u (hsub1 u hu) v (hsub1 v hv) w (hsub1 w hw))
      (fun u hu v hv => htotal u (hsub1 u hu) v (hsub1 v hv))
    have hs2 := mergeSort_pairwise_mem le (List.splitInTwo ⟨a :: b :: xs, rfl⟩).2.1
      (fun u hu v hv w hw => htrans u (hsub2 u hu) v (hsub2 v hv) w (hsub2 w hw))
      (fun u hu v hv => htotal u (hsub2 u hu) v (hsub2 v hv))
    have hmm1 : ∀ z ∈ (List.splitInTwo ⟨a :: b :: xs, rfl⟩).1.1.mergeSort le
        ++ (List.splitInTwo ⟨a :: b :: xs, rfl⟩).2.1.mergeSort le, z ∈ a :: b :: xs := by
      intro z hz
      rcases List.mem_append.mp hz with hz | hz
      · exact hsub1 z (List.mem_mergeSort.mp hz)
      · exact hsub2 z (List.mem_mergeSort.mp hz)
    rw [List.mergeSort]
    exact merge_pairwise_mem le _ _
      (fun u hu v hv w hw => htrans u (hmm1 u hu) v (hmm1 v hv) w (hmm1 w hw))
      (fun u hu v hv => htotal u (hmm1 u hu) v (hmm1 v hv))
      hs1 hs2
termination_by l => l.length

theorem getLastOpt_mem : ∀ (l : List Nat) (r : Nat), l.getLast? = some r → r ∈ l := by
  intro l
  induction l with
  | nil => intro r h; simp at h
  | cons a l ih =>
    intro r h
    cases l with
    | nil =>
      simp [List.getLast?] at h
      simp [h]
    | cons b l' =>
      rw [List.getLast?_cons_cons] at h
      exact List.mem_cons_of_mem _ (ih r h)

theorem pairwise_le_last (R : Nat → Nat → Prop) :
    ∀ (l : List Nat) (r : Nat), l.Pairwise R → l.getLast? = some r →
      ∀ x ∈ l, R x r ∨ x = r := by
  intro l
  induction l with
  | nil => intro r _ h; simp at h
  | cons a l ih =>
    intro r hp hlast x hx
    cases l with
    | nil =>
      simp [List.getLast?] at hlast
      simp at hx
      right
      rw [hx, hlast]
    | cons b l' =>
      rw [List.getLast?_cons_cons] at hlast
      rcases List.mem_cons.mp hx with hx | hx
      · left
        rw [hx]
        exact List.rel_of_pairwise_cons hp (getLastOpt_mem _ r hlast)
      · exact ih r hp.of_cons hlast x hx

/-- Invariant of the `reduce` in `getTopmostLayer`: on a tie-free set
on which the comparator is antisymmetric and strictly transitive, the
accumulator ends at an element no other processed element beats. -/
theorem fold_max_aux (s : Scene) (L : List Nat)
    (hanti : ∀ a ∈ L, ∀ b ∈ L, compareZOrder s a b = - compareZOrder s b a)
    (htrans : ∀ a ∈ L, ∀ b ∈ L, ∀ c ∈ L,
      compareZOrder s a b < 0 → compareZOrder s b c < 0 → compareZOrder s a c < 0)
    (hties : ∀ a ∈ L, ∀ b ∈ L, compareZOrder s a b = 0 → a = b) :
    ∀ (t : List Nat) (acc : Nat), acc ∈ L → (∀ x ∈ t, x ∈ L) →
      (t.foldl (fun topmost current =>
          if compareZOrder s topmost current < 0 then current else topmost) acc) ∈ acc :: t ∧
      ∀ x ∈ acc :: t, compareZOrder s x
        (t.foldl (fun topmost current =>
          if compareZOrder s topmost current < 0 then current else topmost) acc) ≤ 0 := by
  intro t
  induction t with
  | nil =>
    intro acc hacc _
    constructor
    · simp
    · intro x hx
      simp at hx
      subst hx
      simp only [List.foldl_nil]
      have h := hanti x hacc x hacc
      omega
  | cons cur t' ih =>
    intro acc hacc hsub
    have hcur : cur ∈ L := hsub cur (by simp)
    have hsub' : ∀ x ∈ t', x ∈ L := fun x hx => hsub x (List.mem_cons_of_mem _ hx)
    rw [List.foldl_cons]
    by_cases hlt : compareZOrder s acc cur < 0
    · rw [if_pos hlt]
      obtain ⟨hmem, hall⟩ := ih cur hcur hsub'
      constructor
      · rcases List.mem_cons.mp hmem with h | h
        · rw [h]
          simp
        · exact List.mem_cons_of_mem _ (List.mem_cons_of_mem _ h)
      · intro x hx
        rcases List.mem_cons.mp hx with hx | hx
        · subst hx
          have hr : compareZOrder s cur
              (t'.foldl (fun topmost current =>
                if compareZOrder s topmost current < 0 then current else topmost) cur) ≤ 0 :=
            hall cur (by simp)
          have hrL : (t'.foldl (fun topmost current =>
              if compareZOrder s topmost current < 0 then current else topmost) cur) ∈ L := by
            rcases List.mem_cons.mp hmem with h | h
            · rw [h]
              exact hcur
            · exact hsub' _ h
          rcases lt_or_eq_of_le hr with hr | hr
          · exact le_of_lt (htrans x hacc cur hcur _ hrL hlt hr)
          · have hcr := hties cur hcur _ hrL hr
            rw [← hcr]
            exact le_of_lt hlt
        · exact hall x hx
    · rw [if_neg hlt]
      obtain ⟨hmem, hall⟩ := ih acc hacc hsub'
      constructor
      · rcases List.mem_cons.mp hmem with h | h
        · rw [h]
          simp
        · exact List.mem_cons_of_mem _ (List.mem_cons_of_mem _ h)
      · intro x hx
        have hrL : (t'.foldl (fun topmost current =>
            if compareZOrder s topmost current < 0 then current else topmost) acc) ∈ L := by
          rcases List.mem_cons.mp hmem with h | h
          · rw [h]
            exact hacc
          · exact hsub' _ h
        rcases List.mem_cons.mp hx with hx | hx
        · subst hx
          exact hall x (by simp)
        · rcases List.mem_cons.mp hx with hx | hx
          · subst hx
            have hca : compareZOrder s x acc ≤ 0 := by
              have h := hanti acc hacc x hcur
              omega
            have hacr : compareZOrder s acc
                (t'.foldl (fun topmost current =>
                  if compareZOrder s topmost current < 0 then current else topmost) acc) ≤ 0 :=
              hall acc (by simp)
            rcases lt_or_eq_of_le hca with hca | hca
            · rcases lt_or_eq_of_le hacr with hacr | hacr
              · exact le_of_lt (htrans x hcur acc hacc _ hrL hca hacr)
              · have h := hties acc hacc _ hrL hacr
                rw [← h]
                exact le_of_lt hca
            · have h := hties x hcur acc hacc hca
              rw [h]
              exact hacr
          · exact hall x (List.mem_cons_of_mem _ hx)

/-- **C2 (amended).** The fold-based extremum and the sorted sequence
agree — but at the LAST sorted index, not index 0: the comparator sorts
ascending (bottom-most first), `getTopmostLayer` picks the maximum.
Stated for tie-free selections inside one tree; index 0 holds the
bottom-most node, see the counterexample. -/
theorem C2_topmost_eq_sorted_last (s : Scene) (pg : Nat) (sel : List Nat)
    (hlen : 2 ≤ sel.length)
    (htree : ∀ x ∈ sel, inTreeOf s pg x)
    (hties : ∀ a ∈ sel, ∀ b ∈ sel, compareZOrder s a b = 0 → a = b) :
    (sortLayersByZOrder s sel).getLast? = some (getTopmostLayer s sel) := by
  have hanti : ∀ a ∈ sel, ∀ b ∈ sel, compareZOrder s a b = - compareZOrder s b a := by
    intro a ha b hb
    rw [compareZOrder_eq_cmpPaths a b (htree a ha) (htree b hb),
      compareZOrder_eq_cmpPaths b a (htree b hb) (htree a ha)]
    exact cmpPaths_antisymm s _ _
  have htrans : ∀ a ∈ sel, ∀ b ∈ sel, ∀ c ∈ sel,
      compareZOrder s a b < 0 → compareZOrder s b c < 0 → compareZOrder s a c < 0 := by
    intro a ha b hb c hc h1 h2
    rw [compareZOrder_eq_cmpPaths a b (htree a ha) (htree b hb)] at h1
    rw [compareZOrder_eq_cmpPaths b c (htree b hb) (htree c hc)] at h2
    rw [compareZOrder_eq_cmpPaths a c (htree a ha) (htree c hc)]
    exact cmpPaths_trans_neg s _ _ _ h1 h2
  cases sel with
  | nil => simp at hlen
  | cons h t =>
    obtain ⟨hm_mem, hm_max⟩ := fold_max_aux s (h :: t) hanti htrans hties t h
      (by simp) (fun x hx => List.mem_cons_of_mem _ hx)
    set m := getTopmostLayer s (h :: t) with hmdef
    have hm_mem' : m ∈ h :: t := hm_mem
    have hm_max' : ∀ x ∈ h :: t, compareZOrder s x m ≤ 0 := hm_max
    set srt := sortLayersByZOrder s (h :: t) with hsdef
    have hperm : srt.Perm (h :: t) := List.mergeSort_perm (h :: t) _
    have hmemiff : ∀ x, x ∈ srt ↔ x ∈ h :: t := fun x => hperm.mem_iff
    have hne : srt ≠ [] := by
      intro hcontra
      have := hperm.length_eq
      rw [hcontra] at this
      simp at this
    obtain ⟨r, hr⟩ := Option.isSome_iff_exists.mp (List.getLast?_isSome.mpr hne)
    have hrmem : r ∈ h :: t := (hmemiff r).mp (getLastOpt_mem srt r hr)
    have hpw : srt.Pairwise
        (fun a b => (decide (compareZOrder s a b ≤ 0)) = true) := by
      apply mergeSort_pairwise_mem
      · intro u hu v hv w hw h1 h2
        rw [decide_eq_true_eq] at h1 h2 ⊢
        have huM := hu
        have hvM := hv
        have hwM := hw
        rcases lt_or_eq_of_le h1 with h1 | h1
        · rcases lt_or_eq_of_le h2 with h2 | h2
          · exact le_of_lt (htrans u huM v hvM w hwM h1 h2)
          · have := hties v hvM w hwM h2
            rw [← this]
            exact le_of_lt h1
        · have := hties u huM v hvM h1
          rw [this]
          exact h2
      · intro u hu v hv
        rw [decide_eq_true_eq, decide_eq_true_eq]
        have h := hanti u hu v hv
        omega
    have hlast := pairwise_le_last _ srt r hpw hr m ((hmemiff m).mpr hm_mem')
    have hrm : compareZOrder s r m ≤ 0 := hm_max' r hrmem
    have hmr : m = r := by
      rcases hlast with hmr | hmr
      · rw [decide_eq_true_eq] at hmr
        have h := hanti m hm_mem' r hrmem
        exact hties m hm_mem' r hrmem (by omega)
      · exact hmr
    rw [hr, hmr]

/-- **C2 counterexample.** The spec pairs the extremum with sorted
index 0, but the sort is ascending: on `sceneSib` with selection
`[1, 2]` the fold returns the topmost node `2` while `sorted[0]` is
the bottom-most node `1`. -/
theorem C2_counterexample :
    2 ≤ ([1, 2] : List Nat).length ∧ (∀ x ∈ ([1, 2] : List Nat), inTreeOf sceneSib 0 x) ∧
      getTopmostLayer sceneSib [1, 2] = 2 ∧
      (sortLayersByZOrder sceneSib [1, 2])[0]? = some 1 := by
  decide

/-- Witness for C2 (amended) on the two-frame tree `sceneCross` with a
cross-container selection. -/
theorem C2_witness :
    (2 ≤ ([3, 5, 6] : List Nat).length ∧
      (∀ x ∈ ([3, 5, 6] : List Nat), inTreeOf sceneCross 0 x) ∧
      (∀ a ∈ ([3, 5, 6] : List Nat), ∀ b ∈ ([3, 5, 6] : List Nat),
        compareZOrder sceneCross a b = 0 → a = b)) ∧
    (sortLayersByZOrder sceneCross [3, 5, 6]).getLast?
      = some (getTopmostLayer sceneCross [3, 5, 6]) :=
  ⟨⟨by decide, by decide, by decide⟩,
    C2_topmost_eq_sorted_last sceneCross 0 [3, 5, 6] (by decide) (by decide) (by decide)⟩

theorem dropAll_self (X : List Nat) : dropAll X X = [] := by
  rcases h : dropAll X X with _ | ⟨a, t⟩
  · rfl
  · exfalso
    have ha : a ∈ dropAll X X := h ▸ List.mem_cons_self a t
    exact (mem_dropAll.mp ha).2 (mem_dropAll.mp ha).1

/-- Sibling index of the element at position `i` of the stacked block:
the block sits right after the prefix `A`. -/
theorem jsIndexOf_inner {A S B : List Nat} {P : Nat}
    (hnd : (A ++ (S ++ P :: B)).Nodup) (i : Nat) (hi : i < S.length) :
    jsIndexOf (A ++ (S ++ P :: B)) S[i] = ((A.length + i : Nat) : Int) := by
  have hdis := (List.nodup_append.mp hnd).2.2
  have hndS : S.Nodup := ((List.nodup_append.mp (List.nodup_append.mp hnd).2.1)).1
  have hmemS : S[i] ∈ S := List.getElem_mem hi
  have hnotA : S[i] ∉ A := fun hmem =>
    hdis hmem (List.mem_append_left _ hmemS)
  have hnottake : S[i] ∉ S.take i := (not_mem_take_drop hndS hi).1
  have hx : S[i] ∉ A ++ S.take i := by
    intro hmem
    rcases List.mem_append.mp hmem with h | h
    · exact hnotA h
    · exact hnottake h
  have hrw : A ++ (S ++ P :: B)
      = (A ++ S.take i) ++ S[i] :: (S.drop (i + 1) ++ P :: B) := by
    conv_lhs => rw [split_at_getElem hi]
    simp only [List.append_assoc, List.cons_append]
  rw [hrw, jsIndexOf_split hx]
  simp [Nat.min_eq_left (le_of_lt hi)]

/-- Sibling index of the pivot of the stacked block. -/
theorem jsIndexOf_pivot {A S B : List Nat} {P : Nat}
    (hnd : (A ++ (S ++ P :: B)).Nodup) :
    jsIndexOf (A ++ (S ++ P :: B)) P = ((A.length + S.length : Nat) : Int) := by
  have hnd' : ((A ++ S) ++ P :: B).Nodup := by simpa [List.append_assoc] using hnd
  have h := (List.nodup_cons.mp (List.nodup_middle.mp hnd')).1
  have hP : P ∉ A ++ S := fun hm => h (List.mem_append_left _ hm)
  have hrw : A ++ (S ++ P :: B) = (A ++ S) ++ P :: B := by simp
  rw [hrw, jsIndexOf_split hP]
  simp

/-- Two permuted lists, both sorted under a relation antisymmetric on
their members, are equal. -/
theorem perm_pairwise_eq (R : Nat → Nat → Prop) :
    ∀ (l₁ l₂ : List Nat), l₁.Perm l₂ → l₁.Pairwise R → l₂.Pairwise R →
      (∀ a ∈ l₁, ∀ b ∈ l₁, R a b → R b a → a = b) → l₁ = l₂ := by
  intro l₁
  induction l₁ with
  | nil =>
    intro l₂ hperm _ _ _
    exact (hperm.symm.eq_nil).symm
  | cons a l₁ ih =>
    intro l₂ hperm h₁ h₂ hanti
    cases l₂ with
    | nil => exact absurd hperm.eq_nil (by simp)
    | cons b l₂ =>
      by_cases hab : a = b
      · subst hab
        have := ih l₂ hperm.cons_inv h₁.of_cons h₂.of_cons
          (fun x hx y hy => hanti x (List.mem_cons_of_mem _ hx) y (List.mem_cons_of_mem _ hy))
        rw [this]
      · exfalso
        have hal₂ : a ∈ l₂ := by
          have := hperm.subset (List.mem_cons_self a l₁)
          rcases List.mem_cons.mp this with h | h
          · exact absurd h hab
          · exact h
        have hbl₁ : b ∈ l₁ := by
          have := hperm.symm.subset (List.mem_cons_self b l₂)
          rcases List.mem_cons.mp this with h | h
          · exact absurd h.symm hab
          · exact h
        have hRab : R a b := List.rel_of_pairwise_cons h₁ hbl₁
        have hRba : R b a := List.rel_of_pairwise_cons h₂ hal₂
        exact hab (hanti a (List.mem_cons_self a l₁) b (List.mem_cons_of_mem _ hbl₁) hRab hRba)

/-- On a tie-free selection the fold in `getTopmostLayer` returns any
member that no other member beats. -/
theorem topmost_eq_of_max (s : Scene) (sel : List Nat) (P : Nat)
    (hanti : ∀ a ∈ sel, ∀ b ∈ sel, compareZOrder s a b = - compareZOrder s b a)
    (htrans : ∀ a ∈ sel, ∀ b ∈ sel, ∀ c ∈ sel,
      compareZOrder s a b < 0 → compareZOrder s b c < 0 → compareZOrder s a c < 0)
    (hties : ∀ a ∈ sel, ∀ b ∈ sel, compareZOrder s a b = 0 → a = b)
    (hPmem : P ∈ sel)
    (hmax : ∀ x ∈ sel, compareZOrder s x P ≤ 0) :
    getTopmostLayer s sel = P := by
  cases sel with
  | nil => exact absurd hPmem (List.not_mem_nil P)
  | cons h t =>
    obtain ⟨hm_mem, hm_max⟩ := fold_max_aux s (h :: t) hanti htrans hties t h
      (by simp) (fun x hx => List.mem_cons_of_mem _ hx)
    show (t.foldl (fun topmost current =>
      if compareZOrder s topmost current < 0 then current else topmost) h) = P
    have h1 := hm_max P hPmem
    have h2 := hmax _ hm_mem
    have h3 := hanti _ hm_mem P hPmem
    exact hties _ hm_mem P hPmem (by omega)

/-- **C9 (amended).** Idempotence holds for the AnchorOnTop mode: after
a successful zero-offset primary-on-top run, running the operation
again on the same selection with `dx = dy = 0` succeeds and changes
nothing — the shared container keeps the same children list, every
node keeps its parent, and every selected node keeps its coordinates.
(For AnchorOnBottom the second run re-anchors on the flipped block and
reverses the sibling order, see the counterexample.) -/
theorem C9_idempotent_on_top (s : Scene) (sel : List Nat) (P par : Nat)
    (hwf : WFmaps s) (hlen : ¬ sel.length < 2) (hndsel : sel.Nodup)
    (hmem : ∀ x ∈ sel, x ∈ s.nodes)
    (hP : P = getTopmostLayer s sel)
    (hpar : s.parent P = some par)
    (hkids : (s.ntype par).hasKids = true) :
    (stackLayers (stackLayers s sel 0 0 .primaryOnTop).1 sel 0 0 .primaryOnTop).2 = none ∧
    (stackLayers (stackLayers s sel 0 0 .primaryOnTop).1 sel 0 0 .primaryOnTop).1.children par
      = (stackLayers s sel 0 0 .primaryOnTop).1.children par ∧
    (∀ x, (stackLayers (stackLayers s sel 0 0 .primaryOnTop).1 sel 0 0 .primaryOnTop).1.parent x
      = (stackLayers s sel 0 0 .primaryOnTop).1.parent x) ∧
    (∀ x ∈ sel,
      (stackLayers (stackLayers s sel 0 0 .primaryOnTop).1 sel 0 0 .primaryOnTop).1.xpos x
        = (stackLayers s sel 0 0 .primaryOnTop).1.xpos x ∧
      (stackLayers (stackLayers s sel 0 0 .primaryOnTop).1 sel 0 0 .primaryOnTop).1.ypos x
        = (stackLayers s sel 0 0 .primaryOnTop).1.ypos x) := by
  obtain ⟨A, B, h0, hch, hchnd, hA, hB, hselS, hSsel, hndS, hxP, hyP, hcoords,
    hparsel, hparout, hnty, hnodes⟩ :=
    stackLayers_success s sel 0 0 .primaryOnTop P par
      (sortLayersByZOrder s (sel.filter (· ≠ P))) hwf hlen hndsel hmem hP rfl hpar hkids
  set S := sortLayersByZOrder s (sel.filter (· ≠ P)) with hSdef
  set s₁ := (stackLayers s sel 0 0 .primaryOnTop).1 with hs₁def
  simp only [] at hch
  have hselne : sel ≠ [] := by
    intro h
    rw [h] at hlen
    exact hlen (by simp)
  have hPmem : P ∈ sel := hP ▸ getTopmostLayer_mem s sel hselne
  have hndblk : (A ++ (S ++ P :: B)).Nodup := by
    rw [← hch]
    exact hchnd
  have hidxS : ∀ i, (hi : i < S.length) →
      jsIndexOf (s₁.children par) S[i] = ((A.length + i : Nat) : Int) := by
    intro i hi
    rw [hch]
    exact jsIndexOf_inner hndblk i hi
  have hidxP : jsIndexOf (s₁.children par) P = ((A.length + S.length : Nat) : Int) := by
    rw [hch]
    exact jsIndexOf_pivot hndblk
  have hcover : ∀ x ∈ sel, x = P ∨ ∃ i, ∃ hi : i < S.length, S[i] = x := by
    intro x hx
    rcases eq_or_ne x P with h | h
    · exact Or.inl h
    · exact Or.inr (List.mem_iff_getElem.mp (hselS x hx h))
  have hcmp : ∀ a ∈ sel, ∀ b ∈ sel, compareZOrder s₁ a b
      = jsIndexOf (s₁.children par) a - jsIndexOf (s₁.children par) b := by
    intro a ha b hb
    have hpa := hparsel a ha
    have hpb := hparsel b hb
    unfold compareZOrder
    rw [hpa, hpb]
    simp
  have hidx_le : ∀ x ∈ sel,
      jsIndexOf (s₁.children par) x ≤ jsIndexOf (s₁.children par) P := by
    intro x hx
    rcases hcover x hx with h | ⟨i, hi, hieq⟩
    · rw [h]
    · rw [← hieq, hidxS i hi, hidxP]
      have h' : A.length + i ≤ A.length + S.length := by omega
      exact_mod_cast h'
  have hinj : ∀ x ∈ sel, ∀ y ∈ sel,
      jsIndexOf (s₁.children par) x = jsIndexOf (s₁.children par) y → x = y := by
    intro x hx y hy hxy
    rcases hcover x hx with h | ⟨i, hi, hieq⟩ <;> rcases hcover y hy with h' | ⟨j, hj, hjeq⟩
    · rw [h, h']
    · exfalso
      rw [h, ← hjeq, hidxP, hidxS j hj] at hxy
      have hc : A.length + S.length = A.length + j := by exact_mod_cast hxy
      omega
    · exfalso
      rw [h', ← hieq, hidxP, hidxS i hi] at hxy
      have hc : A.length + i = A.length + S.length := by exact_mod_cast hxy
      omega
    · rw [← hieq, ← hjeq] at hxy ⊢
      rw [hidxS i hi, hidxS j hj] at hxy
      have hij : A.length + i = A.length + j := by exact_mod_cast hxy
      have hij' : i = j := by omega
      subst hij'
      rfl
  have hanti₂ : ∀ a ∈ sel, ∀ b ∈ sel, compareZOrder s₁ a b = - compareZOrder s₁ b a := by
    intro a ha b hb
    rw [hcmp a ha b hb, hcmp b hb a ha]
    ring
  have htrans₂ : ∀ a ∈ sel, ∀ b ∈ sel, ∀ c ∈ sel,
      compareZOrder s₁ a b < 0 → compareZOrder s₁ b c < 0 → compareZOrder s₁ a c < 0 := by
    intro a ha b hb c hc h1 h2
    rw [hcmp a ha b hb] at h1
    rw [hcmp b hb c hc] at h2
    rw [hcmp a ha c hc]
    omega
  have hties₂ : ∀ a ∈ sel, ∀ b ∈ sel, compareZOrder s₁ a b = 0 → a = b := by
    intro a ha b hb h
    rw [hcmp a ha b hb] at h
    exact hinj a ha b hb (by omega)
  have hP₂ : getTopmostLayer s₁ sel = P := by
    apply topmost_eq_of_max s₁ sel P hanti₂ htrans₂ hties₂ hPmem
    intro x hx
    rw [hcmp x hx P hPmem]
    have h := hidx_le x hx
    omega
  have hfiltmem : ∀ x ∈ sel.filter (· ≠ P), x ∈ sel := by
    intro x hx
    exact (List.mem_filter.mp hx).1
  have hS₂perm : (sortLayersByZOrder s₁ (sel.filter (· ≠ P))).Perm (sel.filter (· ≠ P)) :=
    List.mergeSort_perm _ _
  have hSperm : S.Perm (sel.filter (· ≠ P)) := by
    rw [hSdef]
    exact List.mergeSort_perm _ _
  have hS₂S : (sortLayersByZOrder s₁ (sel.filter (· ≠ P))).Perm S :=
    hS₂perm.trans hSperm.symm
  have hpwS₂ : (sortLayersByZOrder s₁ (sel.filter (· ≠ P))).Pairwise
      (fun a b => compareZOrder s₁ a b ≤ 0) := by
    have h := mergeSort_pairwise_mem
      (fun a b => decide (compareZOrder s₁ a b ≤ 0)) (sel.filter (· ≠ P)) ?_ ?_
    · exact h.imp (fun hab => by simpa using hab)
    · intro u hu v hv w hw h1 h2
      rw [decide_eq_true_eq] at h1 h2 ⊢
      rw [hcmp u (hfiltmem u hu) v (hfiltmem v hv)] at h1
      rw [hcmp v (hfiltmem v hv) w (hfiltmem w hw)] at h2
      rw [hcmp u (hfiltmem u hu) w (hfiltmem w hw)]
      omega
    · intro u hu v hv
      rw [decide_eq_true_eq, decide_eq_true_eq]
      rw [hcmp u (hfiltmem u hu) v (hfiltmem v hv),
        hcmp v (hfiltmem v hv) u (hfiltmem u hu)]
      omega
  have hpwS : S.Pairwise (fun a b => compareZOrder s₁ a b ≤ 0) := by
    rw [List.pairwise_iff_getElem]
    intro i j hi hj hij
    rw [hcmp S[i] (hSsel S[i] (List.getElem_mem hi)).1 S[j] (hSsel S[j] (List.getElem_mem hj)).1]
    rw [hidxS i hi, hidxS j hj]
    have h' : A.length + i ≤ A.length + j := by omega
    have h'' : ((A.length + i : Nat) : Int) ≤ ((A.length + j : Nat) : Int) := by exact_mod_cast h'
    omega
  have hS₂eq : sortLayersByZOrder s₁ (sel.filter (· ≠ P)) = S := by
    apply perm_pairwise_eq (fun a b => compareZOrder s₁ a b ≤ 0) _ _ hS₂S hpwS₂ hpwS
    intro a ha b hb h1 h2
    have haS : a ∈ sel := hfiltmem a (hS₂perm.subset ha)
    have hbS : b ∈ sel := hfiltmem b (hS₂perm.subset hb)
    rw [hcmp a haS b hbS] at h1
    rw [hcmp b hbS a haS] at h2
    exact hinj a haS b hbS (by omega)
  have hvs : validateSelection sel = none := by
    unfold validateSelection
    rw [if_neg hlen]
  have hvp₂ : validatePrimaryLayer s₁ P = Except.ok par := by
    unfold validatePrimaryLayer
    rw [hparsel P hPmem]
    simp only []
    rw [hnty]
    simp [hkids]
  have hrun₂ : stackLayers s₁ sel 0 0 .primaryOnTop =
      (applyPositions (reorderLayers s₁ S P par .primaryOnTop)
        (calculateOffsetPositions S (s₁.xpos P) (s₁.ypos P) 0 0), none) := by
    unfold stackLayers
    rw [hvs]
    simp only []
    rw [hP₂, hvp₂]
    simp only []
    rw [hS₂eq]
  have hchA : s₁.children par = (A ++ S) ++ P :: B := by
    rw [hch]
    simp
  have hndA : ((A ++ S) ++ P :: B).Nodup := by
    rw [← hchA]
    exact hchnd
  have hsprim₂ : ∀ l ∈ S, l ≠ P := fun l hl => (hSsel l hl).2
  have hscoh₂ : ∀ l ∈ S, s₁.parent l ≠ some par → l ∉ s₁.children par := by
    intro l hl hne
    exact absurd (hparsel l (hSsel l hl).1) hne
  obtain ⟨hr1, hr2, hr3⟩ :=
    reorderTop_children par P S s₁ (A ++ S) B hchA hndA hsprim₂ hndS hscoh₂
  have hSsub : ∀ x ∈ S, x ∈ sel := fun x hx => (hSsel x hx).1
  have hreo_ch : (reorderPrimaryOnTop s₁ S P par).children par = s₁.children par := by
    rw [hr1, dropAll_append, dropAll_self,
      dropAll_of_disjoint (fun a ha hmem => hA a ha (hSsub _ hmem)),
      dropAll_of_disjoint (fun b hb hmem => hB b hb (hSsub _ hmem)), hch]
    simp
  have happ₂ := applyPositions_fields
    (calculateOffsetPositions S (s₁.xpos P) (s₁.ypos P) 0 0)
    (reorderLayers s₁ S P par .primaryOnTop)
  have hreoF := (reorder_fields S P par s₁).1
  have hkeys₂ : ((calculateOffsetPositions S (s₁.xpos P) (s₁.ypos P) 0 0).map
      (·.1)).Nodup := by
    rw [calcOffset_keys]
    exact hndS
  have hsP : P ∉ S := fun h => (hSsel P h).2 rfl
  have hPkeys₂ : ∀ e ∈ calculateOffsetPositions S (s₁.xpos P) (s₁.ypos P) 0 0,
      e.1 ≠ P := by
    intro e he hc
    apply hsP
    rw [← hc]
    have h' : e.1 ∈ (calculateOffsetPositions S (s₁.xpos P) (s₁.ypos P) 0 0).map
        (·.1) := List.mem_map.mpr ⟨e, he, rfl⟩
    rw [calcOffset_keys] at h'
    exact h'
  refine ⟨?_, ?_, ?_, ?_⟩
  · rw [hrun₂]
  · rw [hrun₂]
    show (applyPositions _ _).children par = s₁.children par
    rw [happ₂.1]
    rw [show reorderLayers s₁ S P par .primaryOnTop = reorderPrimaryOnTop s₁ S P par from rfl]
    exact hreo_ch
  · intro x
    rw [hrun₂]
    show (applyPositions _ _).parent x = s₁.parent x
    rw [congrFun happ₂.2.1 x]
    rw [show reorderLayers s₁ S P par .primaryOnTop = reorderPrimaryOnTop s₁ S P par from rfl]
    by_cases hx : x ∈ S
    · rw [hr3 x hx, hparsel x (hSsub x hx)]
    · exact hr2 x hx
  · intro x hx
    rw [hrun₂]
    rcases hcover x hx with h | ⟨i, hi, hieq⟩
    · rw [h]
      have hnm := applyPositions_not_mem
        (calculateOffsetPositions S (s₁.xpos P) (s₁.ypos P) 0 0)
        (reorderLayers s₁ S P par .primaryOnTop) P hPkeys₂
      constructor
      · show (applyPositions _ _).xpos P = s₁.xpos P
        rw [hnm.1]
        exact congrFun hreoF.1 P
      · show (applyPositions _ _).ypos P = s₁.ypos P
        rw [hnm.2]
        exact congrFun hreoF.2.1 P
    · obtain ⟨hax, hay⟩ := applyPositions_mem
        (calculateOffsetPositions S (s₁.xpos P) (s₁.ypos P) 0 0)
        (reorderLayers s₁ S P par .primaryOnTop) S[i]
        (s₁.xpos P + 0 * ((S.length : Int) - (i : Int)))
        (s₁.ypos P + 0 * ((S.length : Int) - (i : Int)))
        hkeys₂ (calcOffset_entry S (s₁.xpos P) (s₁.ypos P) 0 0 i hi)
      have hc1 := (hcoords i hi).1
      have hc2 := (hcoords i hi).2
      rw [← hieq]
      constructor
      · show (applyPositions _ _).xpos S[i] = s₁.xpos S[i]
        rw [hax, hc1, hxP]
      · show (applyPositions _ _).ypos S[i] = s₁.ypos S[i]
        rw [hay, hc2, hyP]

/-- **C9 counterexample.** With AnchorOnBottom the operation is not
idempotent: on `sceneSib` (page 0 with children `[1, 2, 3]`) a first
zero-offset primary-on-bottom run reorders the container to
`[3, 2, 1]`, and a second identical run — which re-anchors on the new
topmost layer `1` — flips it back to `[1, 2, 3]`, so the sibling order
does not stay the same as after the first run. -/
theorem C9_counterexample :
    (stackLayers sceneSib [1, 2, 3] 0 0 .primaryOnBottom).2 = none ∧
    (stackLayers sceneSib [1, 2, 3] 0 0 .primaryOnBottom).1.children 0 = [3, 2, 1] ∧
    (stackLayers (stackLayers sceneSib [1, 2, 3] 0 0 .primaryOnBottom).1
        [1, 2, 3] 0 0 .primaryOnBottom).2 = none ∧
    (stackLayers (stackLayers sceneSib [1, 2, 3] 0 0 .primaryOnBottom).1
        [1, 2, 3] 0 0 .primaryOnBottom).1.children 0 = [1, 2, 3] := by
  decide

/-- Witness for C9 (amended): a double zero-offset primary-on-top run
on `sceneSib` is a no-op the second time. -/
theorem C9_witness :
    (WFmaps sceneSib ∧ ¬ ([1, 2, 3] : List Nat).length < 2 ∧
      ([1, 2, 3] : List Nat).Nodup ∧
      (∀ x ∈ ([1, 2, 3] : List Nat), x ∈ sceneSib.nodes) ∧
      (3 : Nat) = getTopmostLayer sceneSib [1, 2, 3] ∧
      sceneSib.parent 3 = some 0 ∧ (sceneSib.ntype 0).hasKids = true) ∧
    ((stackLayers (stackLayers sceneSib [1, 2, 3] 0 0 .primaryOnTop).1
        [1, 2, 3] 0 0 .primaryOnTop).2 = none ∧
      (stackLayers (stackLayers sceneSib [1, 2, 3] 0 0 .primaryOnTop).1
          [1, 2, 3] 0 0 .primaryOnTop).1.children 0
        = (stackLayers sceneSib [1, 2, 3] 0 0 .primaryOnTop).1.children 0 ∧
      (∀ x, (stackLayers (stackLayers sceneSib [1, 2, 3] 0 0 .primaryOnTop).1
            [1, 2, 3] 0 0 .primaryOnTop).1.parent x
          = (stackLayers sceneSib [1, 2, 3] 0 0 .primaryOnTop).1.parent x) ∧
      (∀ x ∈ ([1, 2, 3] : List Nat),
        (stackLayers (stackLayers sceneSib [1, 2, 3] 0 0 .primaryOnTop).1
            [1, 2, 3] 0 0 .primaryOnTop).1.xpos x
          = (stackLayers sceneSib [1, 2, 3] 0 0 .primaryOnTop).1.xpos x ∧
        (stackLayers (stackLayers sceneSib [1, 2, 3] 0 0 .primaryOnTop).1
            [1, 2, 3] 0 0 .primaryOnTop).1.ypos x
          = (stackLayers sceneSib [1, 2, 3] 0 0 .primaryOnTop).1.ypos x)) :=
  ⟨⟨by decide, by decide, by decide, by decide, by decide, by decide, by decide⟩,
    C9_idempotent_on_top sceneSib [1, 2, 3] 3 0 (by decide) (by decide) (by decide)
      (by decide) (by decide) (by decide) (by decide)⟩

end FigmaStack
